import Mathlib

/-!
# MinReg: chain construction and movable-use collection

A shallow embedding of `src/minreg/MinReg.cpp` (the `Chain` class and the
`MinReg` function pass) and of the search of `src/minreg/LiveVars.cpp` (the pass
`LiveRange`), together with theorems about them.

* Basic blocks and instructions are identified by natural numbers (the
  pointer identity of the source).
* A control-flow graph is an adjacency list: entry `b` of the list is the
  successor list of block `b`, in the order `succ_begin .. succ_end`
  enumerates it.
* Loops of the source that may fail to terminate are given a fuel argument
  and return `none` when the fuel is exhausted.
-/

namespace MinReg

/-! ## Control-flow graph -/

/-- A basic block, identified by its index. -/
abbrev BasicBlock := Nat

/-- A control-flow graph as an adjacency list of successor lists. -/
abbrev CFG := List (List BasicBlock)

/-- The successors of `BB` in enumeration order (`succ_begin(BB) .. succ_end(BB)`). -/
def successors (g : CFG) (BB : BasicBlock) : List BasicBlock :=
  g.getD BB []

/-- The predecessors of `BB` (`pred_begin(BB) .. pred_end(BB)`): one entry for every
edge `p -> BB` of the graph. -/
def predecessors (g : CFG) (BB : BasicBlock) : List BasicBlock :=
  (List.range g.length).flatMap fun p => ((successors g p).filter (fun s => s == BB)).map fun _ => p

/-! ## The `Chain` class -/

/-- The class `Chain`: the vector `chain` and the map `between`
(an association list, most recent binding first). -/
structure Chain where
  chain : List BasicBlock
  between : List (BasicBlock × List BasicBlock)
deriving DecidableEq, Repr

/-- The constructor `Chain(BasicBlock * root)`. -/
def Chain.init (root : BasicBlock) : Chain :=
  { chain := [root], between := [] }

/-- The method `Chain::contains`. -/
def Chain.contains (c : Chain) (BB : BasicBlock) : Bool :=
  c.chain.any fun bb => bb == BB

/-- The inner `for` loop of the two worklist loops of `Chain::append`: every neighbour
that is not yet in the set and differs from `stop` is inserted in the set and pushed on
the queue. The state is the pair (set, queue); the head of the queue list is the back of
the vector. -/
def visit (stop : BasicBlock) :
    List BasicBlock → List BasicBlock × List BasicBlock → List BasicBlock × List BasicBlock
  | [], st => st
  | s :: rest, (seen, queue) =>
    if seen.contains s == false && s != stop then
      visit stop rest (s :: seen, s :: queue)
    else
      visit stop rest (seen, queue)

/-- The `while(queue.size() != 0)` loops of `Chain::append`, over the neighbour function
`nbrs` (successors for the first loop, predecessors for the second). Returns the set
built when the queue is empty, `none` when the fuel runs out first. -/
def search (nbrs : BasicBlock → List BasicBlock) (stop : BasicBlock) :
    Nat → List BasicBlock → List BasicBlock → Option (List BasicBlock)
  | _, [], seen => some seen
  | 0, _ :: _, _ => none
  | fuel + 1, BB :: queue, seen =>
    search nbrs stop fuel (visit stop (nbrs BB) (seen, queue)).2
      (visit stop (nbrs BB) (seen, queue)).1

/-- A number of iterations that suffices for both worklist loops on `g`. -/
def searchFuel (g : CFG) : Nat :=
  g.length + g.flatten.length + 1

/-- The set `fromLast` of `Chain::append`. -/
def fromLast (g : CFG) (last next : BasicBlock) : Option (List BasicBlock) :=
  search (successors g) next (searchFuel g) [last] []

/-- The set `toNext` of `Chain::append`. -/
def toNext (g : CFG) (last next : BasicBlock) : Option (List BasicBlock) :=
  search (predecessors g) last (searchFuel g) [next] []

/-- The vector `intersection` of `Chain::append`: the members of `fromLast` that are
in `toNext`. -/
def intersection (g : CFG) (last next : BasicBlock) : Option (List BasicBlock) :=
  match fromLast g last next, toNext g last next with
  | some fl, some tn => some (fl.filter fun bb => tn.contains bb)
  | _, _ => none

/-- The method `Chain::append`. It fails (`none`) on the assertion `chain.size() > 0`. -/
def Chain.append (g : CFG) (c : Chain) (next : BasicBlock) : Option Chain :=
  match c.chain.getLast? with
  | none => none
  | some last =>
    match intersection g last next with
    | none => none
    | some inter =>
      some { chain := c.chain ++ [next], between := (last, inter) :: c.between }

/-- The method `Chain::blocksBetween` (`between[chain[i]]`; a missing key gives the
empty vector). -/
def Chain.blocksBetween (c : Chain) (i : Nat) : List BasicBlock :=
  match c.chain[i]? with
  | none => []
  | some b =>
    match c.between.find? (fun kv => kv.1 == b) with
    | none => []
    | some kv => kv.2

/-- The static method `Chain::singleElem`. -/
def Chain.singleElem (c : Chain) : Bool :=
  c.chain.length == 1

/-! ## The dominance oracles -/

/-- The blocks reachable from `start` by a non-empty path none of whose blocks after
`start` is `avoid` (the same worklist loop as in `Chain::append`). -/
def reachableAvoiding (g : CFG) (avoid start : BasicBlock) : List BasicBlock :=
  (search (successors g) avoid (searchFuel g) [start] []).getD []

/-- Modelled from the spec: the Dominance Oracle `dominates(a,b)` (the `DominatorTree` of
LLVM, which is not part of the repository), after the glossary: "`A` dominates `B` if every
control path from the function entry to `B` passes through `A`". -/
def dominates (g : CFG) (entry a b : BasicBlock) : Bool :=
  a == b || entry == a || !(entry == b || (reachableAvoiding g a entry).contains b)

/-- Modelled from the spec: the Dominance Oracle `postDominates(a,b)` (the
`PostDominatorTree` of LLVM, which is not part of the repository), after the glossary:
"post-dominance is the symmetric notion toward the function's exit": every control path
from `b` to a block without successors passes through `a`. -/
def postDominates (g : CFG) (a b : BasicBlock) : Bool :=
  a == b ||
    !((successors g b).isEmpty || (reachableAvoiding g a b).any fun e => (successors g e).isEmpty)

/-! ## `MinReg::createChains` -/

/-- The statement `chains[index].append(*s)`. -/
def appendAt (g : CFG) (chains : List Chain) (index : Nat) (s : BasicBlock) :
    Option (List Chain) :=
  match chains[index]? with
  | none => none
  | some c =>
    match c.append g s with
    | none => none
    | some c' => some (chains.set index c')

mutual

/-- The method `MinReg::createChains`: push a new chain rooted at `BB`, then run the
`while(didSomething)` loop. -/
def createChains (g : CFG) (DT PDT : BasicBlock → BasicBlock → Bool) :
    Nat → List Chain → BasicBlock → Option (List Chain)
  | 0, _, _ => none
  | fuel + 1, chains, BB =>
    createChains.whileLoop g DT PDT fuel (chains ++ [Chain.init BB]) chains.length BB
termination_by structural fuel => fuel

/-- The loop `while(didSomething)`: one pass of the `for` loop over the successors of the
block `BB` holds at the start of the pass, repeated while a pass appended a block. -/
def createChains.whileLoop (g : CFG) (DT PDT : BasicBlock → BasicBlock → Bool) :
    Nat → List Chain → Nat → BasicBlock → Option (List Chain)
  | 0, _, _, _ => none
  | fuel + 1, chains, index, BB =>
    match createChains.forLoop g DT PDT fuel chains index BB (successors g BB) false with
    | none => none
    | some (chains', BB', didSomething) =>
      if didSomething then createChains.whileLoop g DT PDT fuel chains' index BB'
      else some chains'
termination_by structural fuel => fuel

/-- The loop `for(auto s = succ_begin(BB), e = succ_end(BB); s != e; ++s)`: the iterators
are taken once, from the block `BB` held when the loop starts, so the remaining
successors `ss` stay those of that block while the variable `BB` moves on an append. -/
def createChains.forLoop (g : CFG) (DT PDT : BasicBlock → BasicBlock → Bool) :
    Nat → List Chain → Nat → BasicBlock → List BasicBlock → Bool →
      Option (List Chain × BasicBlock × Bool)
  | 0, _, _, _, _, _ => none
  | _ + 1, chains, _, BB, [], didSomething => some (chains, BB, didSomething)
  | fuel + 1, chains, index, BB, s :: ss, didSomething =>
    if DT BB s && PDT s BB then
      match appendAt g chains index s with
      | none => none
      | some chains' => createChains.forLoop g DT PDT fuel chains' index s ss true
    else if chains.any (fun c => c.contains s) then
      createChains.forLoop g DT PDT fuel chains index BB ss didSomething
    else
      match createChains g DT PDT fuel chains s with
      | none => none
      | some chains' => createChains.forLoop g DT PDT fuel chains' index BB ss didSomething
termination_by structural fuel => fuel

end

/-! ## Instructions -/

/-- A value of the IR (`Value *`): an instruction, identified by its index, or any other
value (constant, argument, global, block label). -/
inductive Value where
  | inst (i : Nat)
  | other (v : Nat)
deriving DecidableEq, Repr

/-- The atomic ordering of a memory access (`AtomicOrdering`). -/
inductive AtomicOrdering where
  | notAtomic
  | unordered
  | monotonic
  | acquire
  | release
  | acquireRelease
  | sequentiallyConsistent
deriving DecidableEq, Repr

/-- What `canMoveInst` reads of a `LoadInst`: volatility and ordering, the
`invariant.load` metadata, whether the loaded type is sized and its store size, and the
alias-analysis metadata (`getAAMetadata`). The address is operand 0. -/
structure LoadInst where
  isVolatile : Bool
  ordering : AtomicOrdering
  invariantLoad : Bool
  typeSized : Bool
  typeStoreSize : Nat
  aaInfo : Nat
deriving DecidableEq, Repr

/-- The method `LoadInst::isUnordered` of LLVM: not volatile, and the ordering is
`NotAtomic` or `Unordered`. -/
def LoadInst.isUnordered (LI : LoadInst) : Bool :=
  (LI.ordering == AtomicOrdering.notAtomic || LI.ordering == AtomicOrdering.unordered)
    && !LI.isVolatile

/-- The instruction classes `canMoveInst` tells apart by `dyn_cast` and `isa`; every
other instruction (store, call, phi, terminator, alloca, ...) is `otherInst`. -/
inductive InstKind where
  | load (LI : LoadInst)
  | binaryOperator
  | castInst
  | selectInst
  | getElementPtrInst
  | cmpInst
  | insertElementInst
  | extractElementInst
  | shuffleVectorInst
  | extractValueInst
  | insertValueInst
  | otherInst
deriving DecidableEq, Repr

/-- An instruction: its class, its operand list and the block it resides in
(`getParent`). -/
structure Instruction where
  kind : InstKind
  operands : List Value
  parent : BasicBlock
deriving DecidableEq, Repr

/-- A function of the IR: its control-flow graph, the instruction sequence of every block
(`BB->begin() .. BB->end()`) and the instruction behind every index. -/
structure Func where
  cfg : CFG
  insts : BasicBlock → List Nat
  inst : Nat → Instruction

/-- The member `AA`, as far as `canMoveInst` uses it: `pointsToConstantMemory`. -/
structure AliasAnalysis where
  pointsToConstantMemory : Value → Bool

/-- Modelled from the spec: the `AliasSetTracker` of LLVM, which is not part of the
repository, as the Alias Oracle of the spec, a function of the queried location:
`isMod P Size AAInfo` is `getAliasSetForPointer(P, Size, AAInfo).isMod()`, the spec's
`mayBeModifiedWithin(address, sizeInBytes, accessMetadata, regionOfBlocks)` for the region
the tracker was built over. -/
structure AliasSetTracker where
  isMod : Value → Nat → Nat → Bool

/-! ## `MinReg::canMoveInst` and `MinReg::getMovableUses` -/

/-- The method `MinReg::canMoveInst`. The alias query of a load is made on `&I`, the load
instruction itself, with the store size of the loaded type (0 when unsized). -/
def canMoveInst (F : Func) (AA : AliasAnalysis) (AST : AliasSetTracker) (I : Nat) : Bool :=
  match (F.inst I).kind with
  | InstKind.load LI =>
    if !LI.isUnordered then false
    else if AA.pointsToConstantMemory ((F.inst I).operands.getD 0 (Value.other 0)) then true
    else if LI.invariantLoad then true
    else
      !AST.isMod (Value.inst I) (if LI.typeSized then LI.typeStoreSize else 0) LI.aaInfo
  | InstKind.binaryOperator => true
  | InstKind.castInst => true
  | InstKind.selectInst => true
  | InstKind.getElementPtrInst => true
  | InstKind.cmpInst => true
  | InstKind.insertElementInst => true
  | InstKind.extractElementInst => true
  | InstKind.shuffleVectorInst => true
  | InstKind.extractValueInst => true
  | InstKind.insertValueInst => true
  | InstKind.otherInst => false

/-- The body of the operand loop of `getMovableUses` for one operand: `true` when the
loop continues without clearing `opsValid`. `DT I toBB` is `DT->dominates(I, toBB)`. -/
def operandValid (F : Func) (DT : Nat → BasicBlock → Bool) (uses : List Value)
    (toBB : BasicBlock) (op : Value) : Bool :=
  if uses.contains op then true
  else
    match op with
    | Value.inst I => (F.inst I).parent == toBB || DT I toBB
    | Value.other _ => true

/-- The operand loop of `getMovableUses`: the final value of `opsValid`. -/
def opsValid (F : Func) (DT : Nat → BasicBlock → Bool) (uses : List Value)
    (toBB : BasicBlock) (ops : List Value) : Bool :=
  ops.all fun op => operandValid F DT uses toBB op

/-- The `for` loop of `getMovableUses` over the instructions of `fromBB` that remain to
be scanned; the state is the pair (`uses`, `didSomething`). -/
def getMovableUses.scan (F : Func) (AA : AliasAnalysis) (DT : Nat → BasicBlock → Bool)
    (AST : AliasSetTracker) (toBB : BasicBlock) :
    List Nat → List Value × Bool → List Value × Bool
  | [], st => st
  | i :: rest, (uses, didSomething) =>
    if !canMoveInst F AA AST i then
      getMovableUses.scan F AA DT AST toBB rest (uses, didSomething)
    else if !opsValid F DT uses toBB (F.inst i).operands then
      getMovableUses.scan F AA DT AST toBB rest (uses, didSomething)
    else if !uses.contains (Value.inst i) then
      getMovableUses.scan F AA DT AST toBB rest (uses ++ [Value.inst i], true)
    else
      getMovableUses.scan F AA DT AST toBB rest (uses, didSomething)

/-- The method `MinReg::getMovableUses`: full scans of `fromBB` are repeated while a scan
pushed an instruction on `uses`; every scan takes one unit of fuel. -/
def getMovableUses (F : Func) (AA : AliasAnalysis) (DT : Nat → BasicBlock → Bool)
    (AST : AliasSetTracker) (fromBB toBB : BasicBlock) :
    Nat → List Value → Option (List Value)
  | 0, _ => none
  | fuel + 1, uses =>
    if (getMovableUses.scan F AA DT AST toBB (F.insts fromBB) (uses, false)).2 then
      getMovableUses F AA DT AST fromBB toBB fuel
        (getMovableUses.scan F AA DT AST toBB (F.insts fromBB) (uses, false)).1
    else
      some (getMovableUses.scan F AA DT AST toBB (F.insts fromBB) (uses, false)).1

/-! ## `MinReg::raiseUses` and `MinReg::runOnFunction` -/

/-- One advisory record of `raiseUses`, the report printed for one link: "Candidates from
`fromBB` to `toBB`", "(Through `through`)" and the dump of every value of `candidates`. -/
structure Record where
  fromBB : BasicBlock
  toBB : BasicBlock
  through : List BasicBlock
  candidates : List Value
deriving DecidableEq, Repr

/-- Modelled from the spec: the construction of the alias scope of a link,
`new AliasSetTracker(*AA)` followed by `AST->add(**bb)` for every block of the Between-Set
(the `AliasSetTracker` of LLVM is not part of the repository): a function from the list of
blocks added to the Alias Oracle scoped to them. -/
abbrev AliasScope := List BasicBlock → AliasSetTracker

/-- The entry block of a function (`F.getEntryBlock()`): its first block. -/
def Func.getEntryBlock (_F : Func) : BasicBlock := 0

/-- The loop `for(size_t i = chain.size()-1; i > 0; i--)` of `raiseUses`, from the value
of `i` given: the records printed, in the order they are printed. `getMovableUses` runs on
an empty `uses` with the scans a block of that length can need. -/
def raiseUses.loop (F : Func) (AA : AliasAnalysis) (DT : Nat → BasicBlock → Bool)
    (scope : AliasScope) (chain : Chain) : Nat → Option (List Record)
  | 0 => some []
  | i + 1 =>
    match chain.chain[i + 1]?, chain.chain[i]? with
    | some fromBB, some toBB =>
      match getMovableUses F AA DT (scope (chain.blocksBetween i)) fromBB toBB
          ((F.insts fromBB).length + 1) [] with
      | none => none
      | some uses =>
        match raiseUses.loop F AA DT scope chain i with
        | none => none
        | some records =>
          some ({ fromBB := fromBB, toBB := toBB, through := chain.blocksBetween i,
                  candidates := uses } :: records)
    | _, _ => none

/-- The method `MinReg::raiseUses`: the loop starts at `chain.size()-1`, the position of
the last block (a chain is never empty). -/
def raiseUses (F : Func) (AA : AliasAnalysis) (DT : Nat → BasicBlock → Bool)
    (scope : AliasScope) (chain : Chain) : Option (List Record) :=
  raiseUses.loop F AA DT scope chain (chain.chain.length - 1)

/-- The loop `for(auto c = chains.begin(); c != endChains; ++c) raiseUses(*c)` of
`runOnFunction`. -/
def runOnFunction.raise (F : Func) (AA : AliasAnalysis) (DT : Nat → BasicBlock → Bool)
    (scope : AliasScope) : List Chain → Option (List Record)
  | [] => some []
  | c :: cs =>
    match raiseUses F AA DT scope c with
    | none => none
    | some records =>
      match runOnFunction.raise F AA DT scope cs with
      | none => none
      | some rest => some (records ++ rest)

/-- The method `MinReg::runOnFunction`: the value returned and the records printed (the
call `F.viewCFG()` has no part in either). `DT` and `PDT` answer the block queries of
`createChains`, `DTI` the query `DT->dominates(I, toBB)` of `getMovableUses`;
`std::remove_if` keeps the chains that are not `singleElem`, in their order. -/
def runOnFunction (F : Func) (AA : AliasAnalysis) (DT PDT : BasicBlock → BasicBlock → Bool)
    (DTI : Nat → BasicBlock → Bool) (scope : AliasScope) (fuel : Nat) :
    Option (Bool × List Record) :=
  match createChains F.cfg DT PDT fuel [] F.getEntryBlock with
  | none => none
  | some chains =>
    match runOnFunction.raise F AA DTI scope (chains.filter fun c => !c.singleElem) with
    | none => none
    | some records => some (false, records)

/-! ## The pass `LiveRange` (LiveVars.cpp) -/

/-- The type `LiveMap` (a map from blocks to sets of instructions) as the list of the
pairs (block, instruction) with the instruction in the set of the block. -/
abbrev LiveMap := List (BasicBlock × Nat)

/-- The test `M[bb].count(i) > 0`. -/
def LiveMap.count (M : LiveMap) (bb : BasicBlock) (i : Nat) : Bool :=
  M.contains (bb, i)

/-- The statement `M[bb].insert(i)`. -/
def LiveMap.insert (M : LiveMap) (bb : BasicBlock) (i : Nat) : LiveMap :=
  if M.contains (bb, i) then M else (bb, i) :: M

/-- The state `runOnInstructionDFS` works on: the set `visited` and the members `LiveIn`
and `LiveOut` of the pass `LiveRange`. -/
structure LiveRange where
  visited : List BasicBlock
  LiveIn : LiveMap
  LiveOut : LiveMap
deriving DecidableEq, Repr

/-- The users of instruction `i` (`i->use_begin() .. i->use_end()`): the instructions of
the function that have `i` among their operands. -/
def Func.users (F : Func) (i : Nat) : List Nat :=
  (List.range F.cfg.length).flatMap fun bb =>
    (F.insts bb).filter fun u => (F.inst u).operands.contains (Value.inst i)

mutual

/-- The method `LiveRange::runOnInstructionDFS`: the value returned and the state left.
A block already in `visited` answers with its entry in `LiveIn`. -/
def LiveRange.runOnInstructionDFS (F : Func) (i : Nat) (users : List Nat) :
    Nat → BasicBlock → LiveRange → Option (Bool × LiveRange)
  | 0, _, _ => none
  | fuel + 1, bb, st =>
    if st.visited.contains bb then some (st.LiveIn.count bb i, st)
    else
      match LiveRange.runOnInstructionDFS.successorLoop F i users fuel (successors F.cfg bb)
          false { st with visited := bb :: st.visited } with
      | none => none
      | some (foundBelow, st') =>
        some ((F.insts bb).any (fun I => users.contains I) || foundBelow,
          { visited := st'.visited,
            LiveIn :=
              if (F.insts bb).any (fun I => users.contains I) || foundBelow then
                st'.LiveIn.insert bb i
              else st'.LiveIn,
            LiveOut := if foundBelow then st'.LiveOut.insert bb i else st'.LiveOut })
termination_by structural fuel => fuel

/-- The loop `for (auto S = succ_begin(bb), e = succ_end(bb); S != e; ++S)` with body
`foundBelow |= runOnInstructionDFS(i, *S, users, visited)`: every successor is visited. -/
def LiveRange.runOnInstructionDFS.successorLoop (F : Func) (i : Nat) (users : List Nat) :
    Nat → List BasicBlock → Bool → LiveRange → Option (Bool × LiveRange)
  | 0, _, _, _ => none
  | _ + 1, [], foundBelow, st => some (foundBelow, st)
  | fuel + 1, S :: rest, foundBelow, st =>
    match LiveRange.runOnInstructionDFS F i users fuel S st with
    | none => none
    | some (found, st') =>
      LiveRange.runOnInstructionDFS.successorLoop F i users fuel rest (foundBelow || found) st'
termination_by structural fuel => fuel

end

/-- The method `LiveRange::runOnInstruction` on the members `LiveIn` and `LiveOut`: the
users of `i` outside its block `BB` are collected; when there is one, `BB` is marked
visited, `i` is put in `LiveOut[BB]` and the search is run from every successor of `BB`. -/
def LiveRange.runOnInstruction (F : Func) (fuel : Nat) (i : Nat) (LiveIn LiveOut : LiveMap) :
    Option (LiveMap × LiveMap) :=
  if ((F.users i).filter fun u => (F.inst u).parent != (F.inst i).parent).isEmpty then
    some (LiveIn, LiveOut)
  else
    match LiveRange.runOnInstructionDFS.successorLoop F i
        ((F.users i).filter fun u => (F.inst u).parent != (F.inst i).parent) fuel
        (successors F.cfg (F.inst i).parent) false
        { visited := [(F.inst i).parent], LiveIn := LiveIn,
          LiveOut := LiveOut.insert (F.inst i).parent i } with
    | none => none
    | some (_, st) => some (st.LiveIn, st.LiveOut)

/-! ## Paths of the control-flow graph -/

/-- The edge relation of the graph: `Edge g u v` when `v` is a successor of `u`. -/
def Edge (g : CFG) (u v : BasicBlock) : Prop := v ∈ successors g u

/-- The blocks `search` is meant to find: `Reach nbrs stop start b` when a non-empty path
`start -> .. -> b` along `nbrs` exists none of whose blocks after `start` is `stop`. -/
inductive Reach (nbrs : BasicBlock → List BasicBlock) (stop start : BasicBlock) :
    BasicBlock → Prop where
  | base {s : BasicBlock} : s ∈ nbrs start → s ≠ stop → Reach nbrs stop start s
  | step {m s : BasicBlock} : Reach nbrs stop start m → s ∈ nbrs m → s ≠ stop →
      Reach nbrs stop start s

/-- The blocks between `prev` and `next` in the sense of the data model: those on some
control path from `prev` to `next` whose intermediate blocks `mid` all differ from both
`prev` and `next`. -/
def OnPathBetween (g : CFG) (prev next b : BasicBlock) : Prop :=
  ∃ mid : List BasicBlock, b ∈ mid ∧ (∀ x ∈ mid, x ≠ prev ∧ x ≠ next) ∧
    List.Chain (Edge g) prev (mid ++ [next])

/-! ## Properties of chains -/

/-- Chain validity of a block sequence: every consecutive pair `(a, b)` satisfies
`dominates(a, b)` and `postDominates(b, a)`. -/
def ChainValid (DT PDT : BasicBlock → BasicBlock → Bool) (l : List BasicBlock) : Prop :=
  List.Chain' (fun a b => DT a b = true ∧ PDT b a = true) l

/-- The state the loops of `createChains` run in: chain `index` exists and the variable
`BB` is its last block. -/
def TailAt (chains : List Chain) (index : Nat) (BB : BasicBlock) : Prop :=
  ∃ c, chains[index]? = some c ∧ c.chain.getLast? = some BB

/-- A block is covered when it is a member of some chain. -/
def Covered (chains : List Chain) (b : BasicBlock) : Prop :=
  ∃ c ∈ chains, b ∈ c.chain

/-- A block is closed when all its successors are covered. -/
def ClosedIn (g : CFG) (chains : List Chain) (b : BasicBlock) : Prop :=
  ∀ s ∈ successors g b, Covered chains s

/-- Every covered block is closed or one of the blocks `O` still being worked on. -/
def ClosedUpTo (g : CFG) (chains : List Chain) (O : BasicBlock → Prop) : Prop :=
  ∀ b, Covered chains b → O b ∨ ClosedIn g chains b

/-! ## Properties of the list of movable uses -/

/-- The admission test of `getMovableUses` for instruction `i` against the list `uses`:
`canMoveInst` accepts it and the operand loop leaves `opsValid` set. -/
def Admissible (F : Func) (AA : AliasAnalysis) (DT : Nat → BasicBlock → Bool)
    (AST : AliasSetTracker) (toBB : BasicBlock) (uses : List Value) (i : Nat) : Prop :=
  canMoveInst F AA AST i = true ∧ opsValid F DT uses toBB (F.inst i).operands = true

/-- The list `uses` during `getMovableUses`: free of duplicates, made of instructions of
`fromBB`, each admissible against the list itself. -/
def UsesOk (F : Func) (AA : AliasAnalysis) (DT : Nat → BasicBlock → Bool)
    (AST : AliasSetTracker) (fromBB toBB : BasicBlock) (uses : List Value) : Prop :=
  uses.Nodup ∧
    ∀ v ∈ uses, ∃ i ∈ F.insts fromBB, v = Value.inst i ∧ Admissible F AA DT AST toBB uses i

/-- The values of the scanned list that are not yet in `uses`: what a scan can still
push. -/
def pending (l : List Nat) (uses : List Value) : List Value :=
  ((l.map Value.inst).dedup).filter fun v => !uses.contains v

/-! ## The kinds of pure computation the spec lists -/

/-- The kinds of pure, effect-free computation in the words of section 4.3 of the spec:
arithmetic (`BinaryOperator`), conversions (`CastInst`), comparisons (`CmpInst`), vector
lane extract, insert and shuffle, aggregate extract and insert. -/
def specListedKind : InstKind → Bool
  | InstKind.binaryOperator => true
  | InstKind.castInst => true
  | InstKind.cmpInst => true
  | InstKind.extractElementInst => true
  | InstKind.insertElementInst => true
  | InstKind.shuffleVectorInst => true
  | InstKind.extractValueInst => true
  | InstKind.insertValueInst => true
  | _ => false

/-! ## The liveness conditions of the claim -/

/-- The live-in condition in the words of claim C25, for a block `bb` other than the
defining block `D` of `i`: `bb` is reachable from a successor of `D` without passing
through `D`, and a path from `bb` that does not pass through `D` leads to a block
(possibly `bb` itself) holding a user of `i` located outside `D`. -/
def LiveInExpected (F : Func) (i : Nat) (bb : BasicBlock) : Prop :=
  (∃ s ∈ successors F.cfg (F.inst i).parent, s ≠ (F.inst i).parent ∧
      (bb = s ∨ Reach (successors F.cfg) (F.inst i).parent s bb)) ∧
    ∃ ub u, (ub = bb ∨ Reach (successors F.cfg) (F.inst i).parent bb ub) ∧
      u ∈ F.insts ub ∧ u ∈ F.users i ∧ (F.inst u).parent ≠ (F.inst i).parent

/-- The live-out condition in the words of claim C25: the path to a user exists from some
successor of `bb`. -/
def LiveOutExpected (F : Func) (i : Nat) (bb : BasicBlock) : Prop :=
  ∃ s ∈ successors F.cfg bb, s ≠ (F.inst i).parent ∧
    ∃ ub u, (ub = s ∨ Reach (successors F.cfg) (F.inst i).parent s ub) ∧
      u ∈ F.insts ub ∧ u ∈ F.users i ∧ (F.inst u).parent ≠ (F.inst i).parent

/-! ## Example graphs -/

/-- A triangle with a tail: `A -> B`, `A -> C`, `B -> C`, `C -> D` with `A = 0`, `B = 1`,
`C = 2`, `D = 3`; the branch of `A` lists `B` first. -/
def triangle : CFG := [[1, 2], [2], [3], []]

/-- A loop on one block: `0 -> 1`, and block `1` ends in a switch to the exits `2` and
`3` and back to `1` itself. -/
def selfLoop : CFG := [[1], [2, 3, 1], [], []]

/-- The linear graph `A -> B -> C` with `A = 0`, `B = 1`, `C = 2`. -/
def linear : CFG := [[1], [2], []]

/-- The diamond `A -> B`, `A -> C`, `B -> D`, `C -> D` with `A = 0`, `B = 1`, `C = 2`,
`D = 3`; `order` is the successor list of `A`, `[1, 2]` or `[2, 1]`. -/
def diamond (order : List BasicBlock) : CFG := [order, [3], [3], []]

/-- The detour `B -> C`, `B -> X`, `X -> C` behind an entry `A -> B`, with `A = 0`,
`B = 1`, `C = 2`, `X = 3`; `order` is the successor list of `B`, `[2, 3]` or `[3, 2]`. -/
def detour (order : List BasicBlock) : CFG := [[1], order, [], [2]]

/-- A graph on which a chain repeats a block: `A -> B` twice (a branch both of whose
targets are `B`), `B -> X`, `B -> C`, `X -> B`, with `A = 0`, `B = 1`, `X = 2`, `C = 3`. -/
def repeatedBlock : CFG := [[1, 1], [2, 3], [1], []]

/-- A branch with both targets equal: `A -> B` twice, `B -> C`, with `A = 0`, `B = 1`,
`C = 2`. -/
def doubleEdge : CFG := [[1, 1], [2], []]

/-! ## Example functions -/

/-- A block of two additions: instruction `0` adds the result of instruction `1` to a
constant, instruction `1` adds two values that are not instructions. Both reside in block
`1`, whose instruction sequence is given by `order`. -/
def twoAdds (order : List Nat) : Func where
  cfg := [[1], []]
  insts := fun b => if b = 1 then order else []
  inst := fun i =>
    if i = 0 then { kind := InstKind.binaryOperator, operands := [Value.inst 1, Value.other 5],
                    parent := 1 }
    else { kind := InstKind.binaryOperator, operands := [Value.other 3, Value.other 4],
           parent := 1 }

/-- A block with one ordinary load: instruction `0`, in block `1`, loads eight bytes from
the address `Value.other 7` (not an instruction); it is not volatile, not atomic and not
marked invariant. -/
def oneLoad : Func where
  cfg := [[1], []]
  insts := fun b => if b = 1 then [0] else []
  inst := fun _ =>
    { kind := InstKind.load { isVolatile := false, ordering := AtomicOrdering.notAtomic,
                              invariantLoad := false, typeSized := true, typeStoreSize := 8,
                              aaInfo := 0 },
      operands := [Value.other 7], parent := 1 }

/-- A block with one instruction: instruction `0`, in block `1`, of class `k`, with two
operands that are not instructions. -/
def oneInst (k : InstKind) : Func where
  cfg := [[1], []]
  insts := fun b => if b = 1 then [0] else []
  inst := fun _ => { kind := k, operands := [Value.other 7, Value.other 8], parent := 1 }

/-- A block with a load of a computed address: in block `1`, instruction `0` is a call
(an instruction `canMoveInst` rejects) and instruction `1` is an ordinary load, not
volatile, not atomic and not marked invariant, of eight bytes from the address that
instruction `0` returns. -/
def loadOfCall : Func where
  cfg := [[1], []]
  insts := fun b => if b = 1 then [0, 1] else []
  inst := fun i =>
    if i = 0 then { kind := InstKind.otherInst, operands := [], parent := 1 }
    else
      { kind := InstKind.load { isVolatile := false, ordering := AtomicOrdering.notAtomic,
                                invariantLoad := false, typeSized := true, typeStoreSize := 8,
                                aaInfo := 0 },
        operands := [Value.inst 0], parent := 1 }

/-- A block with one atomic load: instruction `0`, in block `1`, is a load with ordering
`unordered`, not volatile and not marked invariant, of eight bytes from the address
`Value.other 7`. -/
def unorderedAtomicLoad : Func where
  cfg := [[1], []]
  insts := fun b => if b = 1 then [0] else []
  inst := fun _ =>
    { kind := InstKind.load { isVolatile := false, ordering := AtomicOrdering.unordered,
                              invariantLoad := false, typeSized := true, typeStoreSize := 8,
                              aaInfo := 0 },
      operands := [Value.other 7], parent := 1 }

/-- A function on the linear graph: instruction `0` is an addition of two values that are
not instructions and resides in block `b`; every block ends in its terminator
(instruction `bb + 1` for block `bb`). -/
def linearAdd (b : BasicBlock) : Func where
  cfg := linear
  insts := fun bb => (if bb = b then [0] else []) ++ (if bb < 3 then [bb + 1] else [])
  inst := fun i =>
    if i = 0 then { kind := InstKind.binaryOperator, operands := [Value.other 3, Value.other 4],
                    parent := b }
    else { kind := InstKind.otherInst, operands := [], parent := i - 1 }

/-- A function on the graph `repeatedBlock` whose block `B` holds one ordinary load
(instruction `0`, of eight bytes at the address `Value.other 7`); the other blocks hold no
instruction that matters. -/
def repeatedBlockLoad : Func where
  cfg := repeatedBlock
  insts := fun b => if b = 1 then [0] else []
  inst := fun _ =>
    { kind := InstKind.load { isVolatile := false, ordering := AtomicOrdering.notAtomic,
                              invariantLoad := false, typeSized := true, typeStoreSize := 8,
                              aaInfo := 0 },
      operands := [Value.other 7], parent := 1 }

/-- A block with one volatile load: instruction `0`, in block `1`, is a volatile,
non-atomic load of eight bytes from the address `Value.other 7`. -/
def volatileLoad : Func where
  cfg := [[1], []]
  insts := fun b => if b = 1 then [0] else []
  inst := fun _ =>
    { kind := InstKind.load { isVolatile := true, ordering := AtomicOrdering.notAtomic,
                              invariantLoad := false, typeSized := true, typeStoreSize := 8,
                              aaInfo := 0 },
      operands := [Value.other 7], parent := 1 }

/-- A block with one ordinary load of an unsized type: instruction `0`, in block `1`, is
not volatile, not atomic and not marked invariant, and reads the address `Value.other 7`;
the store size recorded for the type is never asked for. -/
def unsizedLoad : Func where
  cfg := [[1], []]
  insts := fun b => if b = 1 then [0] else []
  inst := fun _ =>
    { kind := InstKind.load { isVolatile := false, ordering := AtomicOrdering.notAtomic,
                              invariantLoad := false, typeSized := false, typeStoreSize := 4,
                              aaInfo := 0 },
      operands := [Value.other 7], parent := 1 }

/-- A function with a loop behind the definition: `D -> A`, `A -> B`, `A -> U`, `B -> A`
with `D = 0`, `A = 1`, `B = 2`, `U = 3`; `order` is the successor list of `A`.
Instruction `0` is defined in `D`, its only user, instruction `1`, resides in `U`. -/
def liveLoop (order : List BasicBlock) : Func where
  cfg := [[1], order, [1], []]
  insts := fun bb => if bb = 0 then [0] else if bb = 3 then [1] else []
  inst := fun i =>
    if i = 0 then { kind := InstKind.binaryOperator,
                    operands := [Value.other 5, Value.other 6], parent := 0 }
    else { kind := InstKind.binaryOperator, operands := [Value.inst 0, Value.other 6],
           parent := 3 }

/-! ## Example oracles -/

/-- An alias analysis that proves no address constant. -/
def noConstantMemory : AliasAnalysis where
  pointsToConstantMemory := fun _ => false

/-- An instruction dominance oracle that never answers yes. -/
def dominatesNothing : Nat → BasicBlock → Bool := fun _ _ => false

/-- An alias oracle that reports every location as possibly modified. -/
def modifiesEverything : AliasSetTracker where
  isMod := fun _ _ _ => true

/-- An alias oracle for a Between-Set that writes to the address `Value.other 7`: a
location may be modified exactly when its address is that value. -/
def storesToAddress7 : AliasSetTracker where
  isMod := fun P _ _ => P == Value.other 7

/-- An alias oracle that reports a possible modification exactly of the location whose
address is the value of instruction `0`. -/
def modifiesLoadedValue : AliasSetTracker where
  isMod := fun P _ _ => P == Value.inst 0

/-- An alias scope in which no block writes to memory: no location is reported as
possibly modified, whatever the blocks added. -/
def noWrites : AliasScope := fun _ => { isMod := fun _ _ _ => false }

/-- An alias scope for a function whose block `2` writes to all memory: every location is
reported as possibly modified when block `2` is among the blocks added, none otherwise. -/
def block2Writes : AliasScope := fun blocks => { isMod := fun _ _ _ => blocks.contains 2 }

/-! # Theorems -/

/-! ## The worklist loops of `Chain::append` -/

theorem mem_successors_flatten {g : CFG} {b s : BasicBlock} (h : s ∈ successors g b) :
    s ∈ g.flatten := by
  unfold successors at h
  rw [List.getD_eq_getElem?_getD] at h
  cases hb : g[b]? with
  | none => simp [hb] at h
  | some l =>
    simp [hb] at h
    exact List.mem_flatten.mpr ⟨l, List.getElem?_mem hb, h⟩

theorem mem_predecessors {g : CFG} {b p : BasicBlock} :
    p ∈ predecessors g b ↔ b ∈ successors g p := by
  unfold predecessors
  simp only [List.mem_flatMap, List.mem_range, List.mem_map, List.mem_filter, beq_iff_eq]
  constructor
  · rintro ⟨q, _, s, ⟨hs, rfl⟩, rfl⟩
    exact hs
  · intro h
    refine ⟨p, ?_, b, ⟨h, rfl⟩, rfl⟩
    by_contra hlt
    have : successors g p = [] := by
      unfold successors
      rw [List.getD_eq_getElem?_getD, List.getElem?_eq_none (by omega)]
      rfl
    rw [this] at h
    exact absurd h (List.not_mem_nil _)

theorem mem_predecessors_range {g : CFG} {b p : BasicBlock} (h : p ∈ predecessors g b) :
    p ∈ List.range g.length := by
  unfold predecessors at h
  simp only [List.mem_flatMap, List.mem_range, List.mem_map, List.mem_filter] at h
  obtain ⟨q, hq, s, _, rfl⟩ := h
  exact List.mem_range.mpr hq

/-- What one pass of `visit` does: it puts the list `new` of freshly inserted blocks in
front of both the set and the queue. -/
theorem visit_spec (stop : BasicBlock) (ss seen queue : List BasicBlock) :
    ∃ new, visit stop ss (seen, queue) = (new ++ seen, new ++ queue) ∧
      (∀ x, x ∈ new ↔ x ∈ ss ∧ x ≠ stop ∧ x ∉ seen) ∧
      (seen.Nodup → (new ++ seen).Nodup) := by
  induction ss generalizing seen queue with
  | nil => exact ⟨[], rfl, by simp, by simp⟩
  | cons s rest ih =>
    by_cases hc : (seen.contains s == false && s != stop) = true
    · obtain ⟨new, hv, hm, hn⟩ := ih (s :: seen) (s :: queue)
      have hc' : s ∉ seen ∧ s ≠ stop := by simpa using hc
      refine ⟨new ++ [s], ?_, ?_, ?_⟩
      · simp only [visit, hc, if_true, hv, List.append_assoc, List.singleton_append]
      · intro x
        simp only [List.mem_append, hm, List.mem_cons, List.mem_singleton, List.not_mem_nil,
          or_false, not_or]
        constructor
        · rintro (⟨h1, h2, h3, h4⟩ | rfl)
          · exact ⟨Or.inr h1, h2, h4⟩
          · exact ⟨Or.inl rfl, hc'.2, hc'.1⟩
        · rintro ⟨h1 | h1, h2, h3⟩
          · exact Or.inr h1
          · by_cases hx : x = s
            · exact Or.inr hx
            · exact Or.inl ⟨h1, h2, hx, h3⟩
      · intro hnd
        have := hn (List.nodup_cons.mpr ⟨hc'.1, hnd⟩)
        simpa using this
    · obtain ⟨new, hv, hm, hn⟩ := ih seen queue
      have hc' : ¬ (s ∉ seen ∧ s ≠ stop) := by simpa using hc
      refine ⟨new, ?_, ?_, hn⟩
      · simp only [visit, hc, hv]
        simp
      · intro x
        rw [hm]
        simp only [List.mem_cons]
        constructor
        · rintro ⟨h1, h2, h3⟩
          exact ⟨Or.inr h1, h2, h3⟩
        · rintro ⟨h1 | h1, h2, h3⟩
          · subst h1
            exact absurd ⟨h3, h2⟩ hc'
          · exact ⟨h1, h2, h3⟩

theorem Reach.ne_stop {nbrs : BasicBlock → List BasicBlock} {stop start b : BasicBlock}
    (h : Reach nbrs stop start b) : b ≠ stop := by
  cases h with
  | base _ h2 => exact h2
  | step _ _ h3 => exact h3

/-- Soundness of `search`: every block of the result is reached. -/
theorem search_sound (nbrs : BasicBlock → List BasicBlock) (stop start : BasicBlock) :
    ∀ (fuel : Nat) (queue seen r : List BasicBlock),
      search nbrs stop fuel queue seen = some r →
      (∀ q ∈ queue, q = start ∨ Reach nbrs stop start q) →
      (∀ v ∈ seen, Reach nbrs stop start v) →
      ∀ v ∈ r, Reach nbrs stop start v := by
  intro fuel
  induction fuel with
  | zero =>
    intro queue seen r h _ hs
    cases queue with
    | nil => simp [search] at h; subst h; exact hs
    | cons q qs => simp [search] at h
  | succ n ih =>
    intro queue seen r h hq hs
    cases queue with
    | nil => simp [search] at h; subst h; exact hs
    | cons BB qs =>
      simp only [search] at h
      obtain ⟨new, hv, hm, -⟩ := visit_spec stop (nbrs BB) seen qs
      rw [hv] at h
      have hnew : ∀ x ∈ new, Reach nbrs stop start x := by
        intro x hx
        obtain ⟨h1, h2, -⟩ := (hm x).mp hx
        rcases hq BB (List.mem_cons_self _ _) with rfl | hr
        · exact Reach.base h1 h2
        · exact Reach.step hr h1 h2
      refine ih _ _ r h ?_ ?_
      · intro q hqm
        rcases List.mem_append.mp hqm with h1 | h1
        · exact Or.inr (hnew q h1)
        · exact hq q (List.mem_cons_of_mem _ h1)
      · intro v hvm
        rcases List.mem_append.mp hvm with h1 | h1
        · exact hnew v h1
        · exact hs v h1

/-- Closure of the result of `search`: the set only grows, and every block that is the
start or in the set, once off the queue, has all its neighbours other than `stop` in the
set. -/
theorem search_closed (nbrs : BasicBlock → List BasicBlock) (stop start : BasicBlock) :
    ∀ (fuel : Nat) (queue seen r : List BasicBlock),
      search nbrs stop fuel queue seen = some r →
      (∀ v, v = start ∨ v ∈ seen → v ∈ queue ∨ ∀ s ∈ nbrs v, s ≠ stop → s ∈ seen) →
      (∀ v ∈ seen, v ∈ r) ∧
        ∀ v, v = start ∨ v ∈ r → ∀ s ∈ nbrs v, s ≠ stop → s ∈ r := by
  intro fuel
  induction fuel with
  | zero =>
    intro queue seen r h hc
    cases queue with
    | nil =>
      simp [search] at h; subst h
      exact ⟨fun _ hv => hv, fun v hv => (hc v hv).resolve_left (List.not_mem_nil _)⟩
    | cons q qs => simp [search] at h
  | succ n ih =>
    intro queue seen r h hc
    cases queue with
    | nil =>
      simp [search] at h; subst h
      exact ⟨fun _ hv => hv, fun v hv => (hc v hv).resolve_left (List.not_mem_nil _)⟩
    | cons BB qs =>
      simp only [search] at h
      obtain ⟨new, hv, hm, -⟩ := visit_spec stop (nbrs BB) seen qs
      rw [hv] at h
      have hBB : ∀ s ∈ nbrs BB, s ≠ stop → s ∈ new ++ seen := by
        intro s hs hne
        by_cases hin : s ∈ seen
        · exact List.mem_append_right _ hin
        · exact List.mem_append_left _ ((hm s).mpr ⟨hs, hne, hin⟩)
      obtain ⟨h1, h2⟩ := ih _ _ r h (by
        intro v hvs
        by_cases hvB : v = BB
        · subst hvB; exact Or.inr hBB
        · have hvs' : v = start ∨ v ∈ new ∨ v ∈ seen := by
            rcases hvs with h | h
            · exact Or.inl h
            · exact Or.inr (List.mem_append.mp h)
          rcases hvs' with h | h | h
          · rcases hc v (Or.inl h) with h' | h'
            · rcases List.mem_cons.mp h' with h'' | h''
              · exact absurd h'' hvB
              · exact Or.inl (List.mem_append_right _ h'')
            · exact Or.inr fun s hs hne => List.mem_append_right _ (h' s hs hne)
          · exact Or.inl (List.mem_append_left _ h)
          · rcases hc v (Or.inr h) with h' | h'
            · rcases List.mem_cons.mp h' with h'' | h''
              · exact absurd h'' hvB
              · exact Or.inl (List.mem_append_right _ h'')
            · exact Or.inr fun s hs hne => List.mem_append_right _ (h' s hs hne))
      exact ⟨fun v hvm => h1 v (List.mem_append_right _ hvm), h2⟩

/-- Termination of `search`: with the neighbours drawn from a list `U`, the loop ends
within `queue.length + U.length - seen.length` iterations. -/
theorem search_terminates (nbrs : BasicBlock → List BasicBlock) (stop : BasicBlock)
    (U : List BasicBlock) (hU : ∀ b, ∀ s ∈ nbrs b, s ∈ U) :
    ∀ (fuel : Nat) (queue seen : List BasicBlock),
      seen.Nodup → (∀ v ∈ seen, v ∈ U) → queue.length + U.length ≤ fuel + seen.length →
      ∃ r, search nbrs stop fuel queue seen = some r := by
  intro fuel
  induction fuel with
  | zero =>
    intro queue seen hnd hsub hlen
    cases queue with
    | nil => exact ⟨seen, by simp [search]⟩
    | cons q qs =>
      have := (List.Nodup.subperm hnd hsub).length_le
      simp at hlen
      omega
  | succ n ih =>
    intro queue seen hnd hsub hlen
    cases queue with
    | nil => exact ⟨seen, by simp [search]⟩
    | cons BB qs =>
      simp only [search]
      obtain ⟨new, hv, hm, hn⟩ := visit_spec stop (nbrs BB) seen qs
      rw [hv]
      apply ih
      · exact hn hnd
      · intro v hvm
        rcases List.mem_append.mp hvm with h1 | h1
        · exact hU BB v ((hm v).mp h1).1
        · exact hsub v h1
      · simp only [List.length_append, List.length_cons] at hlen ⊢
        omega

/-- The result of `search` from a single start block with an empty set is exactly the
set of reached blocks. -/
theorem search_iff (nbrs : BasicBlock → List BasicBlock) (stop start : BasicBlock)
    (fuel : Nat) (r : List BasicBlock) (h : search nbrs stop fuel [start] [] = some r)
    (v : BasicBlock) : v ∈ r ↔ Reach nbrs stop start v := by
  constructor
  · intro hv
    exact search_sound nbrs stop start fuel [start] [] r h
      (by intro q hq; exact Or.inl (List.mem_singleton.mp hq))
      (by intro v hv; exact absurd hv (List.not_mem_nil _)) v hv
  · intro hr
    obtain ⟨-, h2⟩ := search_closed nbrs stop start fuel [start] [] r h (by
      intro v hv
      rcases hv with h | h
      · exact Or.inl (by simp [h])
      · exact absurd h (List.not_mem_nil _))
    induction hr with
    | base h1 hne => exact h2 _ (Or.inl rfl) _ h1 hne
    | step _ h1 hne ih => exact h2 _ (Or.inr ih) _ h1 hne

theorem fromLast_terminates (g : CFG) (last next : BasicBlock) :
    ∃ r, fromLast g last next = some r := by
  unfold fromLast
  apply search_terminates (successors g) next g.flatten (fun b s hs => mem_successors_flatten hs)
  · exact List.nodup_nil
  · intro v hv; exact absurd hv (List.not_mem_nil _)
  · simp [searchFuel]; omega

theorem toNext_terminates (g : CFG) (last next : BasicBlock) :
    ∃ r, toNext g last next = some r := by
  unfold toNext
  apply search_terminates (predecessors g) last (List.range g.length)
    (fun b s hs => mem_predecessors_range hs)
  · exact List.nodup_nil
  · intro v hv; exact absurd hv (List.not_mem_nil _)
  · simp [searchFuel]; omega

/-- The value of `intersection`: it is computed, and holds exactly the blocks reached
forward from `last` off `next` and backward from `next` off `last`. -/
theorem intersection_spec (g : CFG) (last next : BasicBlock) :
    ∃ inter, intersection g last next = some inter ∧
      ∀ b, b ∈ inter ↔
        Reach (successors g) next last b ∧ Reach (predecessors g) last next b := by
  obtain ⟨fl, hfl⟩ := fromLast_terminates g last next
  obtain ⟨tn, htn⟩ := toNext_terminates g last next
  refine ⟨fl.filter fun bb => tn.contains bb, by simp [intersection, hfl, htn], ?_⟩
  intro b
  have hc : tn.contains b = true ↔ b ∈ tn := by simp
  rw [List.mem_filter, hc, search_iff _ _ _ _ _ hfl, search_iff _ _ _ _ _ htn]

theorem path_of_reach_forward (g : CFG) (last next b : BasicBlock)
    (h : Reach (successors g) next last b) :
    b = last ∨ ∃ l, (∀ x ∈ l, x ≠ last ∧ x ≠ next) ∧ List.Chain (Edge g) last (l ++ [b]) := by
  induction h with
  | base h1 _ =>
    exact Or.inr ⟨[], by simp, by simpa using h1⟩
  | @step m s hm h1 _ ih =>
    by_cases hs : s = last
    · exact Or.inl hs
    · right
      by_cases hml : m = last
      · subst hml
        exact ⟨[], by simp, by simpa using h1⟩
      · obtain ⟨l, hl, hc⟩ := ih.resolve_left hml
        refine ⟨l ++ [m], ?_, ?_⟩
        · intro x hx
          rcases List.mem_append.mp hx with h | h
          · exact hl x h
          · rw [List.mem_singleton.mp h]; exact ⟨hml, hm.ne_stop⟩
        · rw [List.append_assoc, List.singleton_append, List.chain_split]
          exact ⟨hc, by simpa using h1⟩

theorem path_of_reach_backward (g : CFG) (last next b : BasicBlock)
    (h : Reach (predecessors g) last next b) :
    b = next ∨ ∃ l, (∀ x ∈ l, x ≠ last ∧ x ≠ next) ∧ List.Chain (Edge g) b (l ++ [next]) := by
  induction h with
  | base h1 _ =>
    exact Or.inr ⟨[], by simp, by simpa using mem_predecessors.mp h1⟩
  | @step m s hm h1 _ ih =>
    by_cases hs : s = next
    · exact Or.inl hs
    · right
      have he : Edge g s m := mem_predecessors.mp h1
      by_cases hmn : m = next
      · subst hmn
        exact ⟨[], by simp, by simpa using he⟩
      · obtain ⟨l, hl, hc⟩ := ih.resolve_left hmn
        refine ⟨m :: l, ?_, ?_⟩
        · intro x hx
          rcases List.mem_cons.mp hx with h | h
          · rw [h]; exact ⟨hm.ne_stop, hmn⟩
          · exact hl x h
        · exact List.Chain.cons he hc

theorem reach_forward_of_path (g : CFG) (stop a : BasicBlock) :
    ∀ (l : List BasicBlock) (b : BasicBlock), List.Chain (Edge g) a (l ++ [b]) →
      (∀ x ∈ l, x ≠ stop) → b ≠ stop → Reach (successors g) stop a b := by
  intro l
  induction l using List.reverseRecOn with
  | nil =>
    intro b hc _ hb
    exact Reach.base (by simpa using hc) hb
  | append_singleton l m ih =>
    intro b hc hl hb
    rw [List.append_assoc, List.singleton_append, List.chain_split] at hc
    have hm := ih m hc.1 (fun x hx => hl x (List.mem_append_left _ hx))
      (hl m (List.mem_append_right _ (List.mem_singleton_self m)))
    exact Reach.step hm (by simpa using hc.2) hb

theorem reach_backward_of_path (g : CFG) (stop next : BasicBlock) :
    ∀ (l : List BasicBlock) (b : BasicBlock), List.Chain (Edge g) b (l ++ [next]) →
      (∀ x ∈ l, x ≠ stop) → b ≠ stop → Reach (predecessors g) stop next b := by
  intro l
  induction l with
  | nil =>
    intro b hc _ hb
    exact Reach.base (mem_predecessors.mpr (by simpa using hc)) hb
  | cons m l ih =>
    intro b hc hl hb
    rw [List.cons_append, List.chain_cons] at hc
    have hm := ih m hc.2 (fun x hx => hl x (List.mem_cons_of_mem _ hx))
      (hl m (List.mem_cons_self _ _))
    exact Reach.step hm (mem_predecessors.mpr hc.1) hb

theorem reach_iff_onPathBetween (g : CFG) (prev next b : BasicBlock) :
    Reach (successors g) next prev b ∧ Reach (predecessors g) prev next b ↔
      OnPathBetween g prev next b := by
  constructor
  · rintro ⟨hf, hb⟩
    have hbn : b ≠ next := hf.ne_stop
    have hbp : b ≠ prev := hb.ne_stop
    obtain ⟨l1, hl1, hc1⟩ := (path_of_reach_forward g prev next b hf).resolve_left hbp
    obtain ⟨l2, hl2, hc2⟩ := (path_of_reach_backward g prev next b hb).resolve_left hbn
    refine ⟨l1 ++ b :: l2, by simp, ?_, ?_⟩
    · intro x hx
      rcases List.mem_append.mp hx with h | h
      · exact hl1 x h
      · rcases List.mem_cons.mp h with h | h
        · rw [h]; exact ⟨hbp, hbn⟩
        · exact hl2 x h
    · rw [List.append_assoc, List.cons_append, List.chain_split]
      exact ⟨hc1, hc2⟩
  · rintro ⟨mid, hb, hmid, hc⟩
    obtain ⟨l1, l2, rfl⟩ := List.append_of_mem hb
    rw [List.append_assoc, List.cons_append, List.chain_split] at hc
    have hbb := hmid b hb
    constructor
    · exact reach_forward_of_path g next prev l1 b hc.1
        (fun x hx => (hmid x (List.mem_append_left _ hx)).2) hbb.2
    · exact reach_backward_of_path g prev next l2 b hc.2
        (fun x hx => (hmid x (List.mem_append_right _ (List.mem_cons_of_mem _ hx))).1) hbb.1

/-- The effect of `Chain::append` on a chain whose last block is `last`. -/
theorem append_spec (g : CFG) (c : Chain) (last next : BasicBlock)
    (hlast : c.chain.getLast? = some last) :
    ∃ inter, c.append g next =
        some { chain := c.chain ++ [next], between := (last, inter) :: c.between } ∧
      intersection g last next = some inter := by
  obtain ⟨inter, hi, -⟩ := intersection_spec g last next
  exact ⟨inter, by simp [Chain.append, hlast, hi], hi⟩

theorem blocksBetween_append (c : Chain) (last next : BasicBlock) (inter : List BasicBlock)
    (hlast : c.chain.getLast? = some last) :
    Chain.blocksBetween { chain := c.chain ++ [next], between := (last, inter) :: c.between }
      (c.chain.length - 1) = inter := by
  have hne : c.chain ≠ [] := by
    intro h; simp [h] at hlast
  have hpos : 0 < c.chain.length := List.length_pos.mpr hne
  have hget : (c.chain ++ [next])[c.chain.length - 1]? = some last := by
    rw [List.getElem?_append_left (by omega)]
    rw [List.getLast?_eq_getElem?] at hlast
    exact hlast
  simp only [Chain.blocksBetween, hget]
  simp

/-! ## The Between-Set of a link -/

/-- C2 (Between-Set characterisation): on a chain whose last block is `prev`,
`Chain::append` of `next` returns, and the set it stores for the link `(prev, next)`
(read back by `blocksBetween` at the position of `prev`) holds exactly the blocks `b`
with `b ≠ prev`, `b ≠ next` that lie on a control path from `prev` to `next` whose
intermediate blocks all differ from `prev` and `next`; equivalently, the blocks reached
forward from `prev` without passing `next` and backward from `next` without passing
`prev`. -/
theorem append_between_characterisation (g : CFG) (c : Chain) (prev next : BasicBlock)
    (hlast : c.chain.getLast? = some prev) :
    ∃ c', c.append g next = some c' ∧ c'.chain = c.chain ++ [next] ∧
      ∀ b, (b ∈ c'.blocksBetween (c.chain.length - 1) ↔
          b ≠ prev ∧ b ≠ next ∧ OnPathBetween g prev next b) ∧
        (OnPathBetween g prev next b ↔
          Reach (successors g) next prev b ∧ Reach (predecessors g) prev next b) := by
  obtain ⟨inter, ha, hi⟩ := append_spec g c prev next hlast
  obtain ⟨inter', hi', hmem⟩ := intersection_spec g prev next
  rw [hi] at hi'
  cases hi'
  refine ⟨_, ha, rfl, fun b => ⟨?_, (reach_iff_onPathBetween g prev next b).symm⟩⟩
  rw [blocksBetween_append c prev next inter hlast, hmem, reach_iff_onPathBetween]
  constructor
  · intro h
    have h' := h
    obtain ⟨mid, hb, hmid, -⟩ := h'
    exact ⟨(hmid b hb).1, (hmid b hb).2, h⟩
  · exact fun h => h.2.2

theorem append_between_characterisation_witness :
    ∃ c', Chain.append [[1], [2, 3], [], [2]] { chain := [0, 1], between := [(0, [])] } 2
        = some c' ∧
      c'.chain = [0, 1] ++ [2] ∧
      ∀ b, (b ∈ c'.blocksBetween ([0, 1].length - 1) ↔
          b ≠ 1 ∧ b ≠ 2 ∧ OnPathBetween [[1], [2, 3], [], [2]] 1 2 b) ∧
        (OnPathBetween [[1], [2, 3], [], [2]] 1 2 b ↔
          Reach (successors [[1], [2, 3], [], [2]]) 2 1 b ∧
            Reach (predecessors [[1], [2, 3], [], [2]]) 1 2 b) :=
  append_between_characterisation [[1], [2, 3], [], [2]]
    { chain := [0, 1], between := [(0, [])] } 1 2 (by decide)

/-- C3 (Between-Set exclusivity): on a chain whose last block is `prev`, `Chain::append`
of `next` returns, and neither `prev` nor `next` is a member of the set it stores for the
link `(prev, next)`. -/
theorem append_between_excludes_endpoints (g : CFG) (c : Chain) (prev next : BasicBlock)
    (hlast : c.chain.getLast? = some prev) :
    ∃ c', c.append g next = some c' ∧
      prev ∉ c'.blocksBetween (c.chain.length - 1) ∧
      next ∉ c'.blocksBetween (c.chain.length - 1) := by
  obtain ⟨inter, ha, hi⟩ := append_spec g c prev next hlast
  obtain ⟨inter', hi', hmem⟩ := intersection_spec g prev next
  rw [hi] at hi'
  cases hi'
  refine ⟨_, ha, ?_, ?_⟩
  · rw [blocksBetween_append c prev next inter hlast, hmem]
    exact fun h => h.2.ne_stop rfl
  · rw [blocksBetween_append c prev next inter hlast, hmem]
    exact fun h => h.1.ne_stop rfl

theorem append_between_excludes_endpoints_witness :
    ∃ c', Chain.append [[1], [2, 3, 1], [1], [2]] { chain := [0, 1], between := [(0, [])] } 2
        = some c' ∧
      1 ∉ c'.blocksBetween ([0, 1].length - 1) ∧
      2 ∉ c'.blocksBetween ([0, 1].length - 1) :=
  append_between_excludes_endpoints [[1], [2, 3, 1], [1], [2]]
    { chain := [0, 1], between := [(0, [])] } 1 2 (by decide)

/-! ## Rule induction for createChains -/

/-- Rule induction for `createChains` and its two loops: a family of properties of the
terminating runs that is preserved by every step of the code holds of every terminating
run. `PA`, `PB` and `PC` relate the arguments of `createChains`, of the `while` loop and of
the `for` loop to their results. -/
theorem createChains_induction (g : CFG) (DT PDT : BasicBlock → BasicBlock → Bool)
    (PA : List Chain → BasicBlock → List Chain → Prop)
    (PB : List Chain → Nat → BasicBlock → List Chain → Prop)
    (PC : List Chain → Nat → BasicBlock → List BasicBlock → Bool →
      List Chain × BasicBlock × Bool → Prop)
    (hA : ∀ n chains BB r,
      createChains.whileLoop g DT PDT n (chains ++ [Chain.init BB]) chains.length BB = some r →
      PB (chains ++ [Chain.init BB]) chains.length BB r → PA chains BB r)
    (hStop : ∀ n chains index BB chains1 BB1,
      createChains.forLoop g DT PDT n chains index BB (successors g BB) false
        = some (chains1, BB1, false) →
      PC chains index BB (successors g BB) false (chains1, BB1, false) →
      PB chains index BB chains1)
    (hAgain : ∀ n chains index BB chains1 BB1 r,
      createChains.forLoop g DT PDT n chains index BB (successors g BB) false
        = some (chains1, BB1, true) →
      createChains.whileLoop g DT PDT n chains1 index BB1 = some r →
      PC chains index BB (successors g BB) false (chains1, BB1, true) →
      PB chains1 index BB1 r → PB chains index BB r)
    (hNil : ∀ chains index BB did, PC chains index BB [] did (chains, BB, did))
    (hAppend : ∀ n chains index BB s ss did chains1 r,
      DT BB s = true → PDT s BB = true → appendAt g chains index s = some chains1 →
      createChains.forLoop g DT PDT n chains1 index s ss true = some r →
      PC chains1 index s ss true r → PC chains index BB (s :: ss) did r)
    (hSkip : ∀ n chains index BB s ss did r,
      ¬ (DT BB s = true ∧ PDT s BB = true) → (∃ c ∈ chains, c.contains s = true) →
      createChains.forLoop g DT PDT n chains index BB ss did = some r →
      PC chains index BB ss did r → PC chains index BB (s :: ss) did r)
    (hNew : ∀ n chains index BB s ss did chains1 r,
      ¬ (DT BB s = true ∧ PDT s BB = true) → (∀ c ∈ chains, c.contains s = false) →
      createChains g DT PDT n chains s = some chains1 →
      createChains.forLoop g DT PDT n chains1 index BB ss did = some r →
      PA chains s chains1 → PC chains1 index BB ss did r →
      PC chains index BB (s :: ss) did r)
    (fuel : Nat) :
    (∀ chains BB r, createChains g DT PDT fuel chains BB = some r → PA chains BB r) ∧
    (∀ chains index BB r,
      createChains.whileLoop g DT PDT fuel chains index BB = some r → PB chains index BB r) ∧
    (∀ chains index BB ss did r,
      createChains.forLoop g DT PDT fuel chains index BB ss did = some r →
      PC chains index BB ss did r) := by
  induction fuel with
  | zero =>
    refine ⟨?_, ?_, ?_⟩
    · intro chains BB r h; simp [createChains] at h
    · intro chains index BB r h; simp [createChains.whileLoop] at h
    · intro chains index BB ss did r h; simp [createChains.forLoop] at h
  | succ n ih =>
    obtain ⟨ihA, ihB, ihC⟩ := ih
    refine ⟨?_, ?_, ?_⟩
    · intro chains BB r h
      rw [createChains] at h
      exact hA n _ _ _ h (ihB _ _ _ _ h)
    · intro chains index BB r h
      rw [createChains.whileLoop] at h
      cases hf : createChains.forLoop g DT PDT n chains index BB (successors g BB) false with
      | none => simp [hf] at h
      | some res =>
        obtain ⟨chains1, BB1, did1⟩ := res
        simp only [hf] at h
        cases did1 with
        | true =>
          simp only [if_true] at h
          exact hAgain n _ _ _ _ _ _ hf h (ihC _ _ _ _ _ _ hf) (ihB _ _ _ _ h)
        | false =>
          simp at h
          subst h
          exact hStop n _ _ _ _ _ hf (ihC _ _ _ _ _ _ hf)
    · intro chains index BB ss did r h
      cases ss with
      | nil =>
        simp [createChains.forLoop] at h
        subst h
        exact hNil _ _ _ _
      | cons s ss =>
        rw [createChains.forLoop] at h
        by_cases hc : (DT BB s && PDT s BB) = true
        · simp only [hc, if_true] at h
          have hc' : DT BB s = true ∧ PDT s BB = true := by simpa using hc
          cases ha : appendAt g chains index s with
          | none => simp [ha] at h
          | some chains1 =>
            simp only [ha] at h
            exact hAppend n _ _ _ _ _ _ _ _ hc'.1 hc'.2 ha h (ihC _ _ _ _ _ _ h)
        · have hc' : ¬ (DT BB s = true ∧ PDT s BB = true) := by simpa using hc
          simp only [hc, if_false] at h
          by_cases hk : (chains.any fun c => c.contains s) = true
          · simp only [hk, if_true] at h
            exact hSkip n _ _ _ _ _ _ _ hc' (by simpa using hk) h (ihC _ _ _ _ _ _ h)
          · simp only [hk, if_false] at h
            cases hr : createChains g DT PDT n chains s with
            | none => simp [hr] at h
            | some chains1 =>
              simp only [hr] at h
              have hk' : ∀ c ∈ chains, c.contains s = false := by simpa using hk
              exact hNew n _ _ _ _ _ _ _ _ hc' hk' hr h (ihA _ _ _ hr) (ihC _ _ _ _ _ _ h)

theorem take_set_self {α : Type} (l : List α) (n : Nat) (a : α) :
    (l.set n a).take n = l.take n := by
  rw [List.set_take, List.set_eq_of_length_le (by simp)]

/-- The effect of `chains[index].append(*s)`. -/
theorem appendAt_spec {g : CFG} {chains chains1 : List Chain} {index : Nat} {s : BasicBlock}
    (h : appendAt g chains index s = some chains1) :
    ∃ c c' last, chains[index]? = some c ∧ c.chain.getLast? = some last ∧
      c.append g s = some c' ∧ c'.chain = c.chain ++ [s] ∧ chains1 = chains.set index c' := by
  unfold appendAt at h
  cases hc : chains[index]? with
  | none => simp [hc] at h
  | some c =>
    simp only [hc] at h
    cases hl : c.chain.getLast? with
    | none => simp [Chain.append, hl] at h
    | some last =>
      obtain ⟨inter, ha, -⟩ := append_spec g c last s hl
      rw [ha] at h
      simp only [Option.some.injEq] at h
      exact ⟨c, _, last, rfl, hl, ha, rfl, h.symm⟩

/-- Frame property of `createChains`: a run of `createChains` only adds chains behind the
ones present, and the loops of a run on chain `index` leave the chains before `index`
untouched and keep the number of chains above `index`. -/
theorem createChains_frame (g : CFG) (DT PDT : BasicBlock → BasicBlock → Bool) (fuel : Nat) :
    (∀ chains BB r, createChains g DT PDT fuel chains BB = some r →
      ∃ ext, r = chains ++ ext) ∧
    (∀ chains index BB r,
      createChains.whileLoop g DT PDT fuel chains index BB = some r →
      index < chains.length → index < r.length ∧ r.take index = chains.take index) ∧
    (∀ chains index BB ss did r,
      createChains.forLoop g DT PDT fuel chains index BB ss did = some r →
      index < chains.length → index < r.1.length ∧ r.1.take index = chains.take index) := by
  apply createChains_induction g DT PDT
    (fun chains _ r => ∃ ext, r = chains ++ ext)
    (fun chains index _ r =>
      index < chains.length → index < r.length ∧ r.take index = chains.take index)
    (fun chains index _ _ _ r =>
      index < chains.length → index < r.1.length ∧ r.1.take index = chains.take index)
  · intro n chains BB r _ h
    obtain ⟨h1, h2⟩ := h (by simp)
    rw [List.take_left'] at h2
    · exact ⟨r.drop chains.length, by
        conv_lhs => rw [← List.take_append_drop chains.length r, h2]⟩
    · rfl
  · intro n chains index BB chains1 BB1 _ h
    exact h
  · intro n chains index BB chains1 BB1 r _ _ h1 h2 hlt
    obtain ⟨h3, h4⟩ := h1 hlt
    obtain ⟨h5, h6⟩ := h2 h3
    exact ⟨h5, h6.trans h4⟩
  · intro chains index BB did hlt
    exact ⟨hlt, rfl⟩
  · intro n chains index BB s ss did chains1 r _ _ ha _ h hlt
    obtain ⟨c, c', last, -, -, -, -, rfl⟩ := appendAt_spec ha
    obtain ⟨h1, h2⟩ := h (by simpa using hlt)
    refine ⟨h1, h2.trans ?_⟩
    exact take_set_self _ _ _
  · intro n chains index BB s ss did r _ _ _ h
    exact h
  · intro n chains index BB s ss did chains1 r _ _ _ _ hA hC hlt
    obtain ⟨ext, rfl⟩ := hA
    obtain ⟨h1, h2⟩ := hC (by simp; omega)
    refine ⟨h1, h2.trans ?_⟩
    rw [List.take_append_of_le_length (by omega)]

/-! ## Chain validity -/

theorem tailAt_lt {chains : List Chain} {index : Nat} {BB : BasicBlock}
    (h : TailAt chains index BB) : index < chains.length := by
  obtain ⟨c, hc, -⟩ := h
  exact (List.getElem?_eq_some.mp hc).1

theorem tailAt_init (chains : List Chain) (BB : BasicBlock) :
    TailAt (chains ++ [Chain.init BB]) chains.length BB :=
  ⟨Chain.init BB, List.getElem?_concat_length _ _, rfl⟩

theorem tailAt_append {chains : List Chain} {index : Nat} (ext : List Chain) {BB : BasicBlock}
    (h : TailAt chains index BB) : TailAt (chains ++ ext) index BB := by
  obtain ⟨c, hc, hl⟩ := h
  exact ⟨c, by rw [List.getElem?_append_left (List.getElem?_eq_some.mp hc).1]; exact hc, hl⟩

/-- After `chains[index].append(*s)` in a state where `BB` is the last block of chain
`index`: the chain `c` at `index` is replaced by `c'`, which is `c` followed by `s`. -/
theorem appendAt_tail {g : CFG} {chains chains1 : List Chain} {index : Nat}
    {BB s : BasicBlock} (ht : TailAt chains index BB)
    (h : appendAt g chains index s = some chains1) :
    ∃ c c', chains[index]? = some c ∧ c.chain.getLast? = some BB ∧
      c'.chain = c.chain ++ [s] ∧ chains1 = chains.set index c' ∧ TailAt chains1 index s := by
  obtain ⟨c, c', last, hc, hl, -, hc', rfl⟩ := appendAt_spec h
  obtain ⟨c0, hc0, hl0⟩ := ht
  rw [hc] at hc0
  cases hc0
  refine ⟨c, c', hc, hl0, hc', rfl, c', ?_, ?_⟩
  · exact List.getElem?_set_self (List.getElem?_eq_some.mp hc).1
  · rw [hc', List.getLast?_concat]

/-- The loops of `createChains` keep `BB` the last block of chain `index`. -/
theorem createChains_tail (g : CFG) (DT PDT : BasicBlock → BasicBlock → Bool) (fuel : Nat)
    (chains : List Chain) (index : Nat) (BB : BasicBlock) (ss : List BasicBlock) (did : Bool)
    (r : List Chain × BasicBlock × Bool)
    (h : createChains.forLoop g DT PDT fuel chains index BB ss did = some r)
    (ht : TailAt chains index BB) : TailAt r.1 index r.2.1 := by
  have key := (createChains_induction g DT PDT (fun _ _ _ => True) (fun _ _ _ _ => True)
    (fun chains index BB _ _ r => TailAt chains index BB → TailAt r.1 index r.2.1)
    (fun _ _ _ _ _ _ => trivial) (fun _ _ _ _ _ _ _ _ => trivial)
    (fun _ _ _ _ _ _ _ _ _ _ _ => trivial)
    (fun _ _ _ _ h => h)
    (by
      intro n chains index BB s ss did chains1 r _ _ ha _ ih ht
      obtain ⟨_, _, _, _, _, _, ht1⟩ := appendAt_tail ht ha
      exact ih ht1)
    (fun _ _ _ _ _ _ _ _ _ _ _ ih => ih)
    (by
      intro n chains index BB s ss did chains1 r _ _ hr _ _ ih ht
      obtain ⟨ext, rfl⟩ := (createChains_frame g DT PDT n).1 _ _ _ hr
      exact ih (tailAt_append ext ht)) fuel).2.2
  exact key _ _ _ _ _ _ h ht

theorem chainValid_append {DT PDT : BasicBlock → BasicBlock → Bool} {l : List BasicBlock}
    {BB s : BasicBlock} (hv : ChainValid DT PDT l) (hl : l.getLast? = some BB)
    (hd : DT BB s = true) (hp : PDT s BB = true) : ChainValid DT PDT (l ++ [s]) := by
  unfold ChainValid at *
  apply List.Chain'.append hv (List.chain'_singleton s)
  intro x hx y hy
  rw [hl] at hx
  simp at hx hy
  subst hx; subst hy
  exact ⟨hd, hp⟩

/-- Chain validity is an invariant of `createChains` and of its loops. -/
theorem createChains_valid (g : CFG) (DT PDT : BasicBlock → BasicBlock → Bool) (fuel : Nat) :
    (∀ chains BB r, createChains g DT PDT fuel chains BB = some r →
      (∀ c ∈ chains, ChainValid DT PDT c.chain) → ∀ c ∈ r, ChainValid DT PDT c.chain) ∧
    (∀ chains index BB r,
      createChains.whileLoop g DT PDT fuel chains index BB = some r →
      TailAt chains index BB → (∀ c ∈ chains, ChainValid DT PDT c.chain) →
      ∀ c ∈ r, ChainValid DT PDT c.chain) ∧
    (∀ chains index BB ss did r,
      createChains.forLoop g DT PDT fuel chains index BB ss did = some r →
      TailAt chains index BB → (∀ c ∈ chains, ChainValid DT PDT c.chain) →
      ∀ c ∈ r.1, ChainValid DT PDT c.chain) := by
  apply createChains_induction g DT PDT
    (fun chains _ r =>
      (∀ c ∈ chains, ChainValid DT PDT c.chain) → ∀ c ∈ r, ChainValid DT PDT c.chain)
    (fun chains index BB r =>
      TailAt chains index BB → (∀ c ∈ chains, ChainValid DT PDT c.chain) →
      ∀ c ∈ r, ChainValid DT PDT c.chain)
    (fun chains index BB _ _ r =>
      TailAt chains index BB → (∀ c ∈ chains, ChainValid DT PDT c.chain) →
      ∀ c ∈ r.1, ChainValid DT PDT c.chain)
  · intro n chains BB r _ ih hv
    apply ih (tailAt_init chains BB)
    intro c hc
    rcases List.mem_append.mp hc with h | h
    · exact hv c h
    · rw [List.mem_singleton.mp h]
      exact List.chain'_singleton BB
  · intro n chains index BB chains1 BB1 _ ih ht hv
    exact ih ht hv
  · intro n chains index BB chains1 BB1 r hf _ ih1 ih2 ht hv
    exact ih2 (createChains_tail g DT PDT n _ _ _ _ _ _ hf ht) (ih1 ht hv)
  · intro chains index BB did _ hv
    exact hv
  · intro n chains index BB s ss did chains1 r hd hp ha _ ih ht hv
    obtain ⟨c, c', hc, hl, hc', rfl, ht1⟩ := appendAt_tail ht ha
    apply ih ht1
    intro x hx
    rcases List.mem_or_eq_of_mem_set hx with h | h
    · exact hv x h
    · rw [h, hc']
      exact chainValid_append (hv c (List.getElem?_mem hc)) hl hd hp
  · intro n chains index BB s ss did r _ _ _ ih ht hv
    exact ih ht hv
  · intro n chains index BB s ss did chains1 r _ _ hr _ ihA ihC ht hv
    obtain ⟨ext, rfl⟩ := (createChains_frame g DT PDT n).1 _ _ _ hr
    exact ihC (tailAt_append ext ht) (ihA hv)

/-- C1 (chain validity): whatever the control-flow graph, the root block and the answers
of the dominance and post-dominance oracles, every chain `[b0..bn]` of a result of
`createChains` satisfies `dominates(b_i, b_{i+1})` and `postDominates(b_{i+1}, b_i)` at
every position `i`. -/
theorem createChains_chain_validity (g : CFG) (DT PDT : BasicBlock → BasicBlock → Bool)
    (fuel : Nat) (root : BasicBlock) (chains : List Chain)
    (h : createChains g DT PDT fuel [] root = some chains) :
    ∀ c ∈ chains, ∀ (i : Nat) (a b : BasicBlock),
      c.chain[i]? = some a → c.chain[i + 1]? = some b → DT a b = true ∧ PDT b a = true := by
  intro c hc i a b ha hb
  have hv : ChainValid DT PDT c.chain :=
    (createChains_valid g DT PDT fuel).1 [] root chains h
      (fun c hc => absurd hc (List.not_mem_nil _)) c hc
  obtain ⟨hi, rfl⟩ := List.getElem?_eq_some.mp ha
  obtain ⟨hi1, rfl⟩ := List.getElem?_eq_some.mp hb
  have := List.chain'_iff_get.mp hv i (by omega)
  simpa using this

theorem createChains_chain_validity_witness :
    createChains [[1], [2, 3], [], [2]] (dominates [[1], [2, 3], [], [2]] 0)
        (postDominates [[1], [2, 3], [], [2]]) 10 [] 0
      = some [{ chain := [0, 1, 2], between := [(1, [3]), (0, [])] },
          { chain := [3], between := [] }] ∧
    ∀ c ∈ [({ chain := [0, 1, 2], between := [(1, [3]), (0, [])] } : Chain),
          { chain := [3], between := [] }],
      ∀ (i : Nat) (a b : BasicBlock), c.chain[i]? = some a → c.chain[i + 1]? = some b →
        dominates [[1], [2, 3], [], [2]] 0 a b = true ∧
          postDominates [[1], [2, 3], [], [2]] b a = true :=
  ⟨by decide, createChains_chain_validity [[1], [2, 3], [], [2]]
    (dominates [[1], [2, 3], [], [2]] 0) (postDominates [[1], [2, 3], [], [2]]) 10 0 _
    (by decide)⟩

/-! ## Runs of createChains on two graphs -/

/-- Evaluation for C5 (chain disjointness): on the graph `0 -> 1, 0 -> 2, 1 -> 2, 2 -> 3` with the
dominance relations of that graph, `createChains` returns the chains `[0, 2, 3]`, `[1]` and
`[2, 3]`: block `2` starts a chain of its own while the successors of `1` are examined and
is afterwards appended to the chain of `0`, so blocks `2` and `3` are members of two
chains, neither of them trivial. -/
theorem createChains_triangle_shares_block :
    createChains triangle (dominates triangle 0) (postDominates triangle) 10 [] 0
      = some [{ chain := [0, 2, 3], between := [(2, []), (0, [1])] },
          { chain := [1], between := [] }, { chain := [2, 3], between := [(2, [])] }] ∧
    Chain.contains { chain := [0, 2, 3], between := [(2, []), (0, [1])] } 2 = true ∧
    Chain.contains { chain := [2, 3], between := [(2, [])] } 2 = true ∧
    Chain.singleElem { chain := [0, 2, 3], between := [(2, []), (0, [1])] } = false ∧
    Chain.singleElem { chain := [2, 3], between := [(2, [])] } = false := by
  decide

theorem selfLoop_forLoop (fuel : Nat) (ss : List BasicBlock)
    (hss : ∀ s ∈ ss, (dominates selfLoop 0 1 s && postDominates selfLoop s 1) = false) :
    ∀ (chains : List Chain) (index : Nat) (did : Bool),
      createChains.forLoop selfLoop (dominates selfLoop 0) (postDominates selfLoop) fuel
          chains index 1 (ss ++ [1]) did = none ∨
      ∃ chains', createChains.forLoop selfLoop (dominates selfLoop 0) (postDominates selfLoop)
          fuel chains index 1 (ss ++ [1]) did = some (chains', 1, true) := by
  induction fuel generalizing ss with
  | zero => intro chains index did; left; simp [createChains.forLoop]
  | succ n ih =>
    intro chains index did
    cases ss with
    | nil =>
      have hc : (dominates selfLoop 0 1 1 && postDominates selfLoop 1 1) = true := by decide
      simp only [List.nil_append, createChains.forLoop, hc, if_true]
      cases appendAt selfLoop chains index 1 with
      | none => left; rfl
      | some chains1 =>
        cases n with
        | zero => left; simp [createChains.forLoop]
        | succ m => right; exact ⟨chains1, by simp [createChains.forLoop]⟩
    | cons s ss =>
      have hc := hss s (List.mem_cons_self _ _)
      have hss' : ∀ x ∈ ss,
          (dominates selfLoop 0 1 x && postDominates selfLoop x 1) = false :=
        fun x hx => hss x (List.mem_cons_of_mem _ hx)
      simp only [List.cons_append, createChains.forLoop, hc]
      by_cases hk : (chains.any fun c => c.contains s) = true
      · simp only [hk, if_true]
        exact ih ss hss' chains index did
      · simp only [hk]
        cases createChains selfLoop (dominates selfLoop 0) (postDominates selfLoop) n chains s with
        | none => left; simp
        | some chains1 => simpa using ih ss hss' chains1 index did

theorem selfLoop_whileLoop (fuel : Nat) :
    ∀ (chains : List Chain) (index : Nat),
      createChains.whileLoop selfLoop (dominates selfLoop 0) (postDominates selfLoop) fuel
        chains index 1 = none := by
  induction fuel with
  | zero => intro chains index; simp [createChains.whileLoop]
  | succ n ih =>
    intro chains index
    have hs : successors selfLoop 1 = [2, 3] ++ [1] := by decide
    rw [createChains.whileLoop, hs]
    rcases selfLoop_forLoop n [2, 3] (by decide) chains index false with h | ⟨chains1, h⟩
    · rw [h]
    · rw [h]
      simp only [if_true]
      exact ih chains1 index

theorem selfLoop_entry (fuel : Nat) (chains : List Chain) (index : Nat) :
    createChains.forLoop selfLoop (dominates selfLoop 0) (postDominates selfLoop) fuel
        chains index 0 [1] false = none ∨
    ∃ chains', createChains.forLoop selfLoop (dominates selfLoop 0) (postDominates selfLoop)
        fuel chains index 0 [1] false = some (chains', 1, true) := by
  cases fuel with
  | zero => left; simp [createChains.forLoop]
  | succ n =>
    have hc : (dominates selfLoop 0 0 1 && postDominates selfLoop 1 0) = true := by decide
    simp only [createChains.forLoop, hc, if_true]
    cases appendAt selfLoop chains index 1 with
    | none => left; rfl
    | some chains1 =>
      cases n with
      | zero => left; simp [createChains.forLoop]
      | succ m => right; exact ⟨chains1, by simp [createChains.forLoop]⟩

/-- Evaluation for C6 (termination): on the graph `0 -> 1`, `1 -> {2, 3, 1}` with the dominance
relations of that graph (which are reflexive), `createChains` from the entry block `0` does
not return, whatever the fuel: once block `1` is the tail, every pass of the `for` loop
appends `1` again because `dominates(1,1)` and `postDominates(1,1)` hold, so
`didSomething` is set in every pass of the `while` loop. -/
theorem createChains_selfLoop_diverges (fuel : Nat) :
    createChains selfLoop (dominates selfLoop 0) (postDominates selfLoop) fuel [] 0 = none := by
  cases fuel with
  | zero => simp [createChains]
  | succ n =>
    rw [createChains]
    cases n with
    | zero => simp [createChains.whileLoop]
    | succ m =>
      have hs : successors selfLoop 0 = [1] := by decide
      rw [createChains.whileLoop, hs]
      rcases selfLoop_entry m ([] ++ [Chain.init 0]) ([] : List Chain).length with h | ⟨c1, h⟩
      · rw [h]
      · rw [h]
        simp only [if_true]
        exact selfLoop_whileLoop _ _ _

/-! ## The dominance oracle -/

theorem mem_reachableAvoiding (g : CFG) (avoid start b : BasicBlock) :
    b ∈ reachableAvoiding g avoid start ↔ Reach (successors g) avoid start b := by
  obtain ⟨r, hr⟩ := fromLast_terminates g start avoid
  unfold fromLast at hr
  unfold reachableAvoiding
  rw [hr]
  exact search_iff _ _ _ _ _ hr b

/-- The oracle `dominates` in terms of paths: `a` dominates `b` unless `b` differs from
`a` and is reached from the entry off `a`. -/
theorem dominates_iff (g : CFG) (entry a b : BasicBlock) :
    dominates g entry a b = true ↔
      a = b ∨ entry = a ∨ (entry ≠ b ∧ ¬ Reach (successors g) a entry b) := by
  unfold dominates
  simp only [Bool.or_eq_true, beq_iff_eq, Bool.not_eq_true', Bool.or_eq_false_iff,
    beq_eq_false_iff_ne, ne_eq]
  rw [or_assoc]
  have hc : (reachableAvoiding g a entry).contains b = false ↔
      ¬ Reach (successors g) a entry b := by
    rw [← mem_reachableAvoiding]
    simp
  rw [hc]

theorem path_of_reflTransGen (g : CFG) (a b : BasicBlock)
    (h : Relation.ReflTransGen (Edge g) a b) :
    b = a ∨ ∃ l, List.Chain (Edge g) a (l ++ [b]) := by
  induction h with
  | refl => exact Or.inl rfl
  | @tail m b _ hmb ih =>
    right
    rcases ih with rfl | ⟨l, hl⟩
    · exact ⟨[], by simpa using hmb⟩
    · refine ⟨l ++ [m], ?_⟩
      rw [List.append_assoc, List.singleton_append, List.chain_split]
      exact ⟨hl, by simpa using hmb⟩

/-- The edge property of dominance: a block that dominates a successor `s` of `x` and is
not `s` itself dominates `x`. -/
theorem dominates_of_successor (g : CFG) (entry a x s : BasicBlock)
    (hs : s ∈ successors g x) (hd : dominates g entry a s = true) (hne : a ≠ s) :
    dominates g entry a x = true := by
  rw [dominates_iff] at hd ⊢
  rcases hd with h | h | ⟨h1, h2⟩
  · exact absurd h hne
  · exact Or.inr (Or.inl h)
  · by_cases hax : a = x
    · exact Or.inl hax
    · right
      by_cases hea : entry = a
      · exact Or.inl hea
      · right
        by_cases hex : entry = x
        · subst hex
          exact absurd (Reach.base hs (Ne.symm hne)) h2
        · exact ⟨hex, fun hr => h2 (Reach.step hr hs (Ne.symm hne))⟩

theorem no_path_of_mutual_dominance (g : CFG) (entry a b : BasicBlock) (hab : a ≠ b)
    (h1 : ¬ Reach (successors g) a entry b) (h2 : ¬ Reach (successors g) b entry a) :
    ∀ (n : Nat) (l : List BasicBlock) (t : BasicBlock), l.length ≤ n →
      List.Chain (Edge g) entry (l ++ [t]) → t ≠ a ∧ t ≠ b := by
  intro n
  induction n with
  | zero =>
    intro l t hl hc
    have : l = [] := List.length_eq_zero.mp (Nat.le_zero.mp hl)
    subst this
    constructor
    · rintro rfl
      exact h2 (reach_forward_of_path g b entry [] t hc (by simp) hab)
    · rintro rfl
      exact h1 (reach_forward_of_path g a entry [] t hc (by simp) (Ne.symm hab))
  | succ n ih =>
    intro l t hl hc
    have key : ∀ (u v : BasicBlock), u ≠ v → (u = a ∨ u = b) → (v = a ∨ v = b) → t = u →
        ¬ Reach (successors g) v entry u → False := by
      intro u v huv hu hv htu hnr
      subst htu
      by_cases hall : ∀ x ∈ l, x ≠ v
      · exact hnr (reach_forward_of_path g v entry l t hc hall huv)
      · push_neg at hall
        obtain ⟨x, hx, rfl⟩ := hall
        obtain ⟨l1, l2, rfl⟩ := List.append_of_mem hx
        rw [List.append_assoc, List.cons_append, List.chain_split] at hc
        have hlen : l1.length ≤ n := by
          simp only [List.length_append, List.length_cons] at hl
          omega
        have := ih l1 x hlen hc.1
        rcases hv with h | h
        · exact this.1 h
        · exact this.2 h
    constructor
    · intro hta
      exact key a b hab (Or.inl rfl) (Or.inr rfl) hta h2
    · intro htb
      exact key b a (Ne.symm hab) (Or.inr rfl) (Or.inl rfl) htb h1

/-- Antisymmetry of dominance on the blocks reachable from the entry. -/
theorem dominates_antisymm (g : CFG) (entry a b : BasicBlock)
    (hr : Relation.ReflTransGen (Edge g) entry b)
    (h1 : dominates g entry a b = true) (h2 : dominates g entry b a = true) : a = b := by
  by_contra hab
  rw [dominates_iff] at h1 h2
  have hba : ¬ b = a := fun h => hab h.symm
  have hea : entry ≠ a := by
    rintro rfl
    rcases h2 with h | h | ⟨h, -⟩
    · exact hba h
    · exact hab h
    · exact h rfl
  have heb : entry ≠ b := by
    rintro rfl
    rcases h1 with h | h | ⟨h, -⟩
    · exact hab h
    · exact hba h
    · exact h rfl
  have n1 : ¬ Reach (successors g) a entry b := by
    rcases h1 with h | h | ⟨-, h⟩
    · exact absurd h hab
    · exact absurd h hea
    · exact h
  have n2 : ¬ Reach (successors g) b entry a := by
    rcases h2 with h | h | ⟨-, h⟩
    · exact absurd h hba
    · exact absurd h heb
    · exact h
  rcases path_of_reflTransGen g entry b hr with h | ⟨l, hl⟩
  · exact heb h.symm
  · exact (no_path_of_mutual_dominance g entry a b hab n1 n2 l.length l b (le_refl _) hl).2 rfl

/-! ## Chain coverage -/

theorem contains_iff (c : Chain) (b : BasicBlock) : c.contains b = true ↔ b ∈ c.chain := by
  simp [Chain.contains]

theorem covered_append_left {chains : List Chain} (ext : List Chain) {b : BasicBlock}
    (h : Covered chains b) : Covered (chains ++ ext) b := by
  obtain ⟨c, hc, hb⟩ := h
  exact ⟨c, List.mem_append_left _ hc, hb⟩

theorem covered_init (chains : List Chain) (BB : BasicBlock) :
    Covered (chains ++ [Chain.init BB]) BB :=
  ⟨Chain.init BB, by simp, by simp [Chain.init]⟩

theorem covered_init_iff (chains : List Chain) (BB b : BasicBlock) :
    Covered (chains ++ [Chain.init BB]) b ↔ Covered chains b ∨ b = BB := by
  constructor
  · rintro ⟨c, hc, hb⟩
    rcases List.mem_append.mp hc with h | h
    · exact Or.inl ⟨c, h, hb⟩
    · rw [List.mem_singleton.mp h] at hb
      exact Or.inr (by simpa [Chain.init] using hb)
  · rintro (h | rfl)
    · exact covered_append_left _ h
    · exact covered_init chains b

/-- The blocks covered after a chain `c` at `index` is replaced by `c` followed by `s`. -/
theorem covered_set_iff {chains : List Chain} {index : Nat} {c c' : Chain} {s : BasicBlock}
    (hc : chains[index]? = some c) (hc' : c'.chain = c.chain ++ [s]) (b : BasicBlock) :
    Covered (chains.set index c') b ↔ Covered chains b ∨ b = s := by
  have hlt : index < chains.length := (List.getElem?_eq_some.mp hc).1
  constructor
  · rintro ⟨x, hx, hb⟩
    rcases List.mem_or_eq_of_mem_set hx with h | h
    · exact Or.inl ⟨x, h, hb⟩
    · rw [h, hc'] at hb
      rcases List.mem_append.mp hb with h' | h'
      · exact Or.inl ⟨c, List.getElem?_mem hc, h'⟩
      · exact Or.inr (List.mem_singleton.mp h')
  · rintro (⟨x, hx, hb⟩ | rfl)
    · obtain ⟨i, hi⟩ := List.mem_iff_getElem?.mp hx
      by_cases hii : index = i
      · subst hii
        rw [hc] at hi
        cases hi
        refine ⟨c', ?_, by rw [hc']; exact List.mem_append_left _ hb⟩
        exact List.getElem?_mem (List.getElem?_set_self hlt)
      · refine ⟨x, ?_, hb⟩
        apply List.getElem?_mem (n := i)
        rw [List.getElem?_set_ne hii]
        exact hi
    · refine ⟨c', List.getElem?_mem (List.getElem?_set_self hlt), ?_⟩
      rw [hc']
      simp

/-- The covered blocks only grow during a run, and `createChains` covers its root. -/
theorem createChains_covered_mono (g : CFG) (DT PDT : BasicBlock → BasicBlock → Bool)
    (fuel : Nat) :
    (∀ chains BB r, createChains g DT PDT fuel chains BB = some r →
      (∀ b, Covered chains b → Covered r b) ∧ Covered r BB) ∧
    (∀ chains index BB r,
      createChains.whileLoop g DT PDT fuel chains index BB = some r →
      ∀ b, Covered chains b → Covered r b) ∧
    (∀ chains index BB ss did r,
      createChains.forLoop g DT PDT fuel chains index BB ss did = some r →
      ∀ b, Covered chains b → Covered r.1 b) := by
  apply createChains_induction g DT PDT
    (fun chains BB r => (∀ b, Covered chains b → Covered r b) ∧ Covered r BB)
    (fun chains _ _ r => ∀ b, Covered chains b → Covered r b)
    (fun chains _ _ _ _ r => ∀ b, Covered chains b → Covered r.1 b)
  · intro n chains BB r _ ih
    exact ⟨fun b hb => ih b (covered_append_left _ hb), ih BB (covered_init chains BB)⟩
  · intro n chains index BB chains1 BB1 _ ih
    exact ih
  · intro n chains index BB chains1 BB1 r _ _ ih1 ih2 b hb
    exact ih2 b (ih1 b hb)
  · intro chains index BB did b hb
    exact hb
  · intro n chains index BB s ss did chains1 r _ _ ha _ ih b hb
    obtain ⟨c, c', last, hc, -, -, hc', rfl⟩ := appendAt_spec ha
    exact ih b ((covered_set_iff hc hc' b).mpr (Or.inl hb))
  · intro n chains index BB s ss did r _ _ _ ih
    exact ih
  · intro n chains index BB s ss did chains1 r _ _ _ _ ihA ihC b hb
    exact ihC b (ihA.1 b hb)

theorem closedUpTo_mono {g : CFG} {chains chains' : List Chain} {O O' : BasicBlock → Prop}
    (h : ClosedUpTo g chains O) (hmono : ∀ b, Covered chains b → Covered chains' b)
    (hnew : ∀ b, Covered chains' b → Covered chains b ∨ O' b)
    (hO : ∀ b, Covered chains b → O b → O' b ∨ ClosedIn g chains' b) :
    ClosedUpTo g chains' O' := by
  intro b hb
  rcases hnew b hb with h1 | h1
  · rcases h b h1 with h2 | h2
    · exact hO b h1 h2
    · exact Or.inr fun s hs => hmono s (h2 s hs)
  · exact Or.inl h1

/-- Closure invariant of `createChains`, for a dominance oracle `DT` that is antisymmetric
on the blocks `Good` (closed under successors) and has the edge property: when a run
returns, every covered block is closed, up to the blocks `O` that were open before. -/
theorem createChains_closed (g : CFG) (DT PDT : BasicBlock → BasicBlock → Bool)
    (Good : BasicBlock → Prop)
    (hgood : ∀ x s, Good x → s ∈ successors g x → Good s)
    (hanti : ∀ a b, Good b → DT a b = true → DT b a = true → a = b)
    (hedge : ∀ a x s, s ∈ successors g x → DT a s = true → a ≠ s → DT a x = true)
    (fuel : Nat) :
    (∀ chains BB r, createChains g DT PDT fuel chains BB = some r →
      ∀ O : BasicBlock → Prop, Good BB → ClosedUpTo g chains O → ClosedUpTo g r O) ∧
    (∀ chains index BB r,
      createChains.whileLoop g DT PDT fuel chains index BB = some r →
      ∀ O : BasicBlock → Prop, Good BB → TailAt chains index BB →
        ClosedUpTo g chains (fun b => O b ∨ b = BB) → ClosedUpTo g r O) ∧
    (∀ chains index BB ss did r,
      createChains.forLoop g DT PDT fuel chains index BB ss did = some r →
      ∀ (O : BasicBlock → Prop) (X : BasicBlock), Good X → Good BB →
        TailAt chains index BB →
        ClosedUpTo g chains (fun b => O b ∨ b = X ∨ b = BB) →
        (∀ s ∈ successors g X, s ∈ ss ∨ Covered chains s) →
        (∀ s ∈ ss, s ∈ successors g X) →
        (BB = X ∨ DT X BB = true) → (did = false → BB = X) →
        ClosedUpTo g r.1 (fun b => O b ∨ b = r.2.1) ∧
          (r.2.2 = false → ClosedUpTo g r.1 O) ∧ Good r.2.1) := by
  apply createChains_induction g DT PDT
    (fun chains BB r =>
      ∀ O : BasicBlock → Prop, Good BB → ClosedUpTo g chains O → ClosedUpTo g r O)
    (fun chains index BB r =>
      ∀ O : BasicBlock → Prop, Good BB → TailAt chains index BB →
        ClosedUpTo g chains (fun b => O b ∨ b = BB) → ClosedUpTo g r O)
    (fun chains index BB ss did r =>
      ∀ (O : BasicBlock → Prop) (X : BasicBlock), Good X → Good BB →
        TailAt chains index BB →
        ClosedUpTo g chains (fun b => O b ∨ b = X ∨ b = BB) →
        (∀ s ∈ successors g X, s ∈ ss ∨ Covered chains s) →
        (∀ s ∈ ss, s ∈ successors g X) →
        (BB = X ∨ DT X BB = true) → (did = false → BB = X) →
        ClosedUpTo g r.1 (fun b => O b ∨ b = r.2.1) ∧
          (r.2.2 = false → ClosedUpTo g r.1 O) ∧ Good r.2.1)
  · intro n chains BB r _ ih O hg hinv
    apply ih O hg (tailAt_init chains BB)
    exact closedUpTo_mono hinv (fun b hb => covered_append_left _ hb)
      (fun b hb => ((covered_init_iff chains BB b).mp hb).imp_right Or.inr)
      (fun b _ hO => Or.inl (Or.inl hO))
  · intro n chains index BB chains1 BB1 _ ih O hg ht hinv
    refine (ih O BB hg hg ht ?_ (fun s hs => Or.inl hs) (fun s hs => hs) (Or.inl rfl)
      (fun _ => rfl)).2.1 rfl
    intro b hb
    rcases hinv b hb with (h | h) | h
    · exact Or.inl (Or.inl h)
    · exact Or.inl (Or.inr (Or.inl h))
    · exact Or.inr h
  · intro n chains index BB chains1 BB1 r hf _ ih1 ih2 O hg ht hinv
    obtain ⟨h1, -, h3⟩ := ih1 O BB hg hg ht (by
      intro b hb
      rcases hinv b hb with (h | h) | h
      · exact Or.inl (Or.inl h)
      · exact Or.inl (Or.inr (Or.inl h))
      · exact Or.inr h) (fun s hs => Or.inl hs) (fun s hs => hs) (Or.inl rfl) (fun _ => rfl)
    exact ih2 O h3 (createChains_tail g DT PDT n _ _ _ _ _ _ hf ht) h1
  · intro chains index BB did O X hgX hgB ht hinv hdone _ _ hdid
    have hX : ClosedIn g chains X := by
      intro s hs
      rcases hdone s hs with h | h
      · exact absurd h (List.not_mem_nil _)
      · exact h
    refine ⟨?_, ?_, hgB⟩
    · intro b hb
      rcases hinv b hb with (h | h | h) | h
      · exact Or.inl (Or.inl h)
      · rw [h]; exact Or.inr hX
      · exact Or.inl (Or.inr h)
      · exact Or.inr h
    · intro hd b hb
      have hBX : BB = X := hdid hd
      rcases hinv b hb with (h | h | h) | h
      · exact Or.inl h
      · rw [h]; exact Or.inr hX
      · rw [h, hBX]; exact Or.inr hX
      · exact Or.inr h
  · intro n chains index BB s ss did chains1 r hd _ ha _ ih O X hgX hgB ht hinv hdone hss hBX _
    obtain ⟨c, c', hc, hl, hc', rfl, ht1⟩ := appendAt_tail ht ha
    have hsX : s ∈ successors g X := hss s (List.mem_cons_self _ _)
    have hB : BB = X ∨ BB = s := by
      rcases hBX with h | h
      · exact Or.inl h
      · by_cases hBs : BB = s
        · exact Or.inr hBs
        · exact Or.inl (hanti BB X hgX (hedge BB X s hsX hd hBs) h)
    have hXs : s = X ∨ DT X s = true := by
      rcases hB with h | h
      · right; rw [← h]; exact hd
      · rcases hBX with h' | h'
        · right; rw [← h']; exact hd
        · right; rw [← h]; exact h'
    apply ih O X hgX (hgood X s hgX hsX) ht1
    · apply closedUpTo_mono hinv
      · intro b hb; exact (covered_set_iff hc hc' b).mpr (Or.inl hb)
      · intro b hb
        rcases (covered_set_iff hc hc' b).mp hb with h | h
        · exact Or.inl h
        · exact Or.inr (Or.inr (Or.inr h))
      · intro b _ hO
        rcases hO with h | h | h
        · exact Or.inl (Or.inl h)
        · exact Or.inl (Or.inr (Or.inl h))
        · rcases hB with h' | h'
          · exact Or.inl (Or.inr (Or.inl (h.trans h')))
          · exact Or.inl (Or.inr (Or.inr (h.trans h')))
    · intro s' hs'
      rcases hdone s' hs' with h | h
      · rcases List.mem_cons.mp h with h' | h'
        · exact Or.inr ((covered_set_iff hc hc' s').mpr (Or.inr h'))
        · exact Or.inl h'
      · exact Or.inr ((covered_set_iff hc hc' s').mpr (Or.inl h))
    · exact fun s' hs' => hss s' (List.mem_cons_of_mem _ hs')
    · exact hXs
    · intro h; cases h
  · intro n chains index BB s ss did r _ hk _ ih O X hgX hgB ht hinv hdone hss hBX hdid
    apply ih O X hgX hgB ht hinv ?_ (fun s' hs' => hss s' (List.mem_cons_of_mem _ hs')) hBX hdid
    intro s' hs'
    rcases hdone s' hs' with h | h
    · rcases List.mem_cons.mp h with h' | h'
      · obtain ⟨c, hc, hcs⟩ := hk
        rw [h']
        exact Or.inr ⟨c, hc, (contains_iff c s).mp hcs⟩
      · exact Or.inl h'
    · exact Or.inr h
  · intro n chains index BB s ss did chains1 r _ _ hr _ ihA ihC O X hgX hgB ht hinv hdone hss
      hBX hdid
    have hsX : s ∈ successors g X := hss s (List.mem_cons_self _ _)
    obtain ⟨hmono, hcs⟩ := (createChains_covered_mono g DT PDT n).1 _ _ _ hr
    obtain ⟨ext, hext⟩ := (createChains_frame g DT PDT n).1 _ _ _ hr
    have ht1 : TailAt chains1 index BB := by rw [hext]; exact tailAt_append ext ht
    apply ihC O X hgX hgB ht1 (ihA _ (hgood X s hgX hsX) hinv) ?_
      (fun s' hs' => hss s' (List.mem_cons_of_mem _ hs')) hBX hdid
    intro s' hs'
    rcases hdone s' hs' with h | h
    · rcases List.mem_cons.mp h with h' | h'
      · rw [h']; exact Or.inr hcs
      · exact Or.inl h'
    · exact Or.inr (hmono s' h)

/-- C4 (chain coverage): when `createChains`, run from the root with the dominance
relation of the graph (and any post-dominance oracle), returns, every block reachable from
the root along successor edges is a member of at least one of the chains returned. -/
theorem createChains_coverage (g : CFG) (PDT : BasicBlock → BasicBlock → Bool) (fuel : Nat)
    (root : BasicBlock) (chains : List Chain)
    (h : createChains g (dominates g root) PDT fuel [] root = some chains)
    (b : BasicBlock) (hb : Relation.ReflTransGen (Edge g) root b) :
    ∃ c ∈ chains, b ∈ c.chain := by
  have hclosed : ClosedUpTo g chains (fun _ => False) :=
    (createChains_closed g (dominates g root) PDT (Relation.ReflTransGen (Edge g) root)
      (fun x s hx hs => Relation.ReflTransGen.tail hx hs)
      (fun a b hb h1 h2 => dominates_antisymm g root a b hb h1 h2)
      (fun a x s hs hd hne => dominates_of_successor g root a x s hs hd hne) fuel).1
      [] root chains h (fun _ => False) Relation.ReflTransGen.refl
      (by rintro b ⟨c, hc, -⟩; exact absurd hc (List.not_mem_nil _))
  have hroot : Covered chains root :=
    ((createChains_covered_mono g (dominates g root) PDT fuel).1 [] root chains h).2
  induction hb with
  | refl => exact hroot
  | tail _ hms ih => exact (hclosed _ ih).resolve_left id _ hms

theorem createChains_coverage_witness :
    createChains [[1], [2, 3], [], [2]] (dominates [[1], [2, 3], [], [2]] 0)
        (postDominates [[1], [2, 3], [], [2]]) 10 [] 0
      = some [{ chain := [0, 1, 2], between := [(1, [3]), (0, [])] },
          { chain := [3], between := [] }] ∧
    Relation.ReflTransGen (Edge [[1], [2, 3], [], [2]]) 0 3 ∧
    ∃ c ∈ [({ chain := [0, 1, 2], between := [(1, [3]), (0, [])] } : Chain),
          { chain := [3], between := [] }], 3 ∈ c.chain :=
  have hr : Relation.ReflTransGen (Edge [[1], [2, 3], [], [2]]) 0 3 :=
    Relation.ReflTransGen.tail
      (Relation.ReflTransGen.tail Relation.ReflTransGen.refl
        (by unfold Edge; decide : Edge [[1], [2, 3], [], [2]] 0 1))
      (by unfold Edge; decide :  Edge [[1], [2, 3], [], [2]] 1 3)
  ⟨by decide, hr, createChains_coverage [[1], [2, 3], [], [2]]
    (postDominates [[1], [2, 3], [], [2]]) 10 0 _ (by decide) 3 hr⟩

/-! ## The fixpoint of getMovableUses -/

theorem operandValid_iff (F : Func) (DT : Nat → BasicBlock → Bool) (uses : List Value)
    (toBB : BasicBlock) (op : Value) :
    operandValid F DT uses toBB op = true ↔
      op ∈ uses ∨ (∃ v, op = Value.other v) ∨
        ∃ j, op = Value.inst j ∧ ((F.inst j).parent = toBB ∨ DT j toBB = true) := by
  unfold operandValid
  by_cases hc : uses.contains op = true
  · simp only [hc, if_true, true_iff]
    exact Or.inl (by simpa using hc)
  · have hm : op ∉ uses := by simpa using hc
    simp only [hc]
    cases op with
    | inst j => simp [hm]
    | other v => simp

theorem opsValid_iff (F : Func) (DT : Nat → BasicBlock → Bool) (uses : List Value)
    (toBB : BasicBlock) (ops : List Value) :
    opsValid F DT uses toBB ops = true ↔
      ∀ op ∈ ops, op ∈ uses ∨ (∃ v, op = Value.other v) ∨
        ∃ j, op = Value.inst j ∧ ((F.inst j).parent = toBB ∨ DT j toBB = true) := by
  unfold opsValid
  rw [List.all_eq_true]
  exact forall_congr' fun op => imp_congr_right fun _ => operandValid_iff F DT uses toBB op

theorem opsValid_mono (F : Func) (DT : Nat → BasicBlock → Bool) (uses uses' : List Value)
    (toBB : BasicBlock) (ops : List Value) (hsub : ∀ v ∈ uses, v ∈ uses')
    (h : opsValid F DT uses toBB ops = true) : opsValid F DT uses' toBB ops = true := by
  rw [opsValid_iff] at h ⊢
  intro op hop
  rcases h op hop with h1 | h1
  · exact Or.inl (hsub op h1)
  · exact Or.inr h1

theorem Admissible.mono {F : Func} {AA : AliasAnalysis} {DT : Nat → BasicBlock → Bool}
    {AST : AliasSetTracker} {toBB : BasicBlock} {uses uses' : List Value} {i : Nat}
    (h : Admissible F AA DT AST toBB uses i) (hsub : ∀ v ∈ uses, v ∈ uses') :
    Admissible F AA DT AST toBB uses' i :=
  ⟨h.1, opsValid_mono F DT uses uses' toBB _ hsub h.2⟩

/-- A step of the `for` loop of `getMovableUses` that pushes the instruction. -/
theorem scan_cons_push (F : Func) (AA : AliasAnalysis) (DT : Nat → BasicBlock → Bool)
    (AST : AliasSetTracker) (toBB : BasicBlock) (i : Nat) (rest : List Nat)
    (uses : List Value) (did : Bool)
    (h : Admissible F AA DT AST toBB uses i ∧ Value.inst i ∉ uses) :
    getMovableUses.scan F AA DT AST toBB (i :: rest) (uses, did) =
      getMovableUses.scan F AA DT AST toBB rest (uses ++ [Value.inst i], true) := by
  obtain ⟨⟨h1, h2⟩, h3⟩ := h
  rw [getMovableUses.scan]
  simp [h1, h2, h3]

/-- A step of the `for` loop of `getMovableUses` that leaves the state as it is. -/
theorem scan_cons_skip (F : Func) (AA : AliasAnalysis) (DT : Nat → BasicBlock → Bool)
    (AST : AliasSetTracker) (toBB : BasicBlock) (i : Nat) (rest : List Nat)
    (uses : List Value) (did : Bool)
    (h : ¬ (Admissible F AA DT AST toBB uses i ∧ Value.inst i ∉ uses)) :
    getMovableUses.scan F AA DT AST toBB (i :: rest) (uses, did) =
      getMovableUses.scan F AA DT AST toBB rest (uses, did) := by
  unfold Admissible at h
  rw [getMovableUses.scan]
  by_cases h1 : canMoveInst F AA AST i = true
  · by_cases h2 : opsValid F DT uses toBB (F.inst i).operands = true
    · by_cases h3 : Value.inst i ∈ uses
      · simp [h1, h2, h3]
      · exact absurd ⟨⟨h1, h2⟩, h3⟩ h
    · simp [h1, h2]
  · simp [h1]

/-- What one full scan does: it appends a list `new` of admitted instructions of the
scanned list, `didSomething` tells whether `new` is non-empty, and a scan that leaves
`didSomething` unset found every admissible instruction already present. -/
theorem scan_spec (F : Func) (AA : AliasAnalysis) (DT : Nat → BasicBlock → Bool)
    (AST : AliasSetTracker) (toBB : BasicBlock) (l : List Nat) :
    ∀ (uses : List Value) (did : Bool),
      (∃ new, (getMovableUses.scan F AA DT AST toBB l (uses, did)).1 = uses ++ new ∧
        (∀ v ∈ new, ∃ i ∈ l, v = Value.inst i ∧ Admissible F AA DT AST toBB
          (getMovableUses.scan F AA DT AST toBB l (uses, did)).1 i) ∧
        (uses.Nodup → (uses ++ new).Nodup) ∧
        ((getMovableUses.scan F AA DT AST toBB l (uses, did)).2 = true ↔
          did = true ∨ new ≠ [])) ∧
      ((getMovableUses.scan F AA DT AST toBB l (uses, did)).2 = false →
        ∀ i ∈ l, Admissible F AA DT AST toBB uses i → Value.inst i ∈ uses) := by
  induction l with
  | nil =>
    intro uses did
    refine ⟨⟨[], by simp [getMovableUses.scan], by simp, by simp, by simp [getMovableUses.scan]⟩,
      by simp⟩
  | cons i rest ih =>
    intro uses did
    by_cases hc : Admissible F AA DT AST toBB uses i ∧ Value.inst i ∉ uses
    · rw [scan_cons_push F AA DT AST toBB i rest uses did hc]
      obtain ⟨⟨new, h1, h2, h3, h4⟩, -⟩ := ih (uses ++ [Value.inst i]) true
      constructor
      · refine ⟨Value.inst i :: new, by rw [h1]; simp, ?_, ?_, ?_⟩
        · intro v hv
          rcases List.mem_cons.mp hv with h | h
          · refine ⟨i, List.mem_cons_self _ _, h, hc.1.mono ?_⟩
            intro w hw
            rw [h1]
            exact List.mem_append_left _ (List.mem_append_left _ hw)
          · obtain ⟨j, hj, hvj, hadm⟩ := h2 v h
            exact ⟨j, List.mem_cons_of_mem _ hj, hvj, hadm⟩
        · intro hnd
          have hnd' : (uses ++ [Value.inst i]).Nodup := by
            rw [List.nodup_append]
            exact ⟨hnd, List.nodup_singleton _, by
              intro a ha hb
              rw [List.mem_singleton.mp hb] at ha
              exact hc.2 ha⟩
          have := h3 hnd'
          simpa using this
        · simp only [h4, true_or, ne_eq, reduceCtorEq, not_false_eq_true, or_true]
      · intro hf
        have : (getMovableUses.scan F AA DT AST toBB rest (uses ++ [Value.inst i], true)).2
            = true := h4.mpr (Or.inl rfl)
        rw [this] at hf
        cases hf
    · rw [scan_cons_skip F AA DT AST toBB i rest uses did hc]
      obtain ⟨⟨new, h1, h2, h3, h4⟩, h5⟩ := ih uses did
      constructor
      · refine ⟨new, h1, ?_, h3, h4⟩
        intro v hv
        obtain ⟨j, hj, hvj, hadm⟩ := h2 v hv
        exact ⟨j, List.mem_cons_of_mem _ hj, hvj, hadm⟩
      · intro hf j hj hadm
        rcases List.mem_cons.mp hj with h | h
        · subst h
          by_contra hn
          exact hc ⟨hadm, hn⟩
        · exact h5 hf j h hadm

theorem UsesOk.length_le {F : Func} {AA : AliasAnalysis} {DT : Nat → BasicBlock → Bool}
    {AST : AliasSetTracker} {fromBB toBB : BasicBlock} {uses : List Value}
    (h : UsesOk F AA DT AST fromBB toBB uses) : uses.length ≤ (F.insts fromBB).length := by
  have hsub : uses ⊆ (F.insts fromBB).map Value.inst := by
    intro v hv
    obtain ⟨i, hi, rfl, -⟩ := h.2 v hv
    exact List.mem_map_of_mem _ hi
  have := (List.Nodup.subperm h.1 hsub).length_le
  simpa using this

/-- The `while` loop of `getMovableUses` returns within as many scans as instructions of
`fromBB` are still missing from `uses`, plus one; its result keeps the invariant and is
closed: every instruction of `fromBB` admissible against it is in it. -/
theorem getMovableUses_loop (F : Func) (AA : AliasAnalysis) (DT : Nat → BasicBlock → Bool)
    (AST : AliasSetTracker) (fromBB toBB : BasicBlock) :
    ∀ (fuel : Nat) (uses : List Value), UsesOk F AA DT AST fromBB toBB uses →
      (F.insts fromBB).length + 1 ≤ fuel + uses.length →
      ∃ R, getMovableUses F AA DT AST fromBB toBB fuel uses = some R ∧
        UsesOk F AA DT AST fromBB toBB R ∧
        ∀ i ∈ F.insts fromBB, Admissible F AA DT AST toBB R i → Value.inst i ∈ R := by
  intro fuel
  induction fuel with
  | zero =>
    intro uses hok hlen
    have := hok.length_le
    omega
  | succ n ih =>
    intro uses hok hlen
    obtain ⟨⟨new, h1, h2, h3, h4⟩, h5⟩ := scan_spec F AA DT AST toBB (F.insts fromBB) uses false
    rw [getMovableUses]
    have hok' : UsesOk F AA DT AST fromBB toBB
        (getMovableUses.scan F AA DT AST toBB (F.insts fromBB) (uses, false)).1 := by
      refine ⟨by rw [h1]; exact h3 hok.1, ?_⟩
      intro v hv
      rw [h1] at hv
      rcases List.mem_append.mp hv with h | h
      · obtain ⟨i, hi, hvi, hadm⟩ := hok.2 v h
        refine ⟨i, hi, hvi, hadm.mono ?_⟩
        intro w hw
        rw [h1]
        exact List.mem_append_left _ hw
      · exact h2 v h
    by_cases hd : (getMovableUses.scan F AA DT AST toBB (F.insts fromBB) (uses, false)).2 = true
    · simp only [hd, if_true]
      apply ih _ hok'
      have hne : new ≠ [] := by
        rcases h4.mp hd with h | h
        · cases h
        · exact h
      have : 0 < new.length := List.length_pos.mpr hne
      rw [h1, List.length_append]
      omega
    · simp only [hd]
      have hd' : (getMovableUses.scan F AA DT AST toBB (F.insts fromBB) (uses, false)).2
          = false := by simpa using hd
      have hnew : new = [] := by
        by_contra hne
        rw [h4.mpr (Or.inr hne)] at hd'
        cases hd'
      refine ⟨_, rfl, hok', ?_⟩
      have he : (getMovableUses.scan F AA DT AST toBB (F.insts fromBB) (uses, false)).1
          = uses := by rw [h1, hnew, List.append_nil]
      rw [he]
      exact h5 hd'

/-- C7 (fixpoint collector result): started with an empty list, `getMovableUses` returns
within `n + 1` scans of a source block of `n` instructions; the list `R` returned is free
of duplicates and made of instructions of the source block, and an instruction `i` of the
source block is in `R` if and only if `canMoveInst` accepts `i` and every operand of `i` is
in `R`, or is not an instruction, or is an instruction that resides in the destination
block or dominates it. -/
theorem getMovableUses_fixpoint (F : Func) (AA : AliasAnalysis)
    (DT : Nat → BasicBlock → Bool) (AST : AliasSetTracker) (fromBB toBB : BasicBlock) :
    ∃ R, getMovableUses F AA DT AST fromBB toBB ((F.insts fromBB).length + 1) [] = some R ∧
      R.Nodup ∧ (∀ v ∈ R, ∃ i ∈ F.insts fromBB, v = Value.inst i) ∧
      ∀ i ∈ F.insts fromBB,
        (Value.inst i ∈ R ↔
          canMoveInst F AA AST i = true ∧
            ∀ op ∈ (F.inst i).operands, op ∈ R ∨ (∃ v, op = Value.other v) ∨
              ∃ j, op = Value.inst j ∧ ((F.inst j).parent = toBB ∨ DT j toBB = true)) := by
  obtain ⟨R, hR, hok, hfix⟩ := getMovableUses_loop F AA DT AST fromBB toBB
    ((F.insts fromBB).length + 1) []
    ⟨List.nodup_nil, fun v hv => absurd hv (List.not_mem_nil _)⟩ (by simp)
  refine ⟨R, hR, hok.1, ?_, ?_⟩
  · intro v hv
    obtain ⟨i, hi, hvi, -⟩ := hok.2 v hv
    exact ⟨i, hi, hvi⟩
  · intro i hi
    rw [← opsValid_iff]
    constructor
    · intro hm
      obtain ⟨j, -, hj, hadm⟩ := hok.2 _ hm
      cases hj
      exact hadm
    · intro hadm
      exact hfix i hi hadm

/-! ## Confluence, pure instructions and the alias query -/

theorem admissible_congr (F F' : Func) (hinst : F'.inst = F.inst) (AA : AliasAnalysis)
    (DT : Nat → BasicBlock → Bool) (AST : AliasSetTracker) (toBB : BasicBlock)
    (uses : List Value) (i : Nat) :
    Admissible F' AA DT AST toBB uses i ↔ Admissible F AA DT AST toBB uses i := by
  simp only [Admissible, canMoveInst, opsValid, operandValid, hinst]

theorem scan_subset (F : Func) (AA : AliasAnalysis) (DT : Nat → BasicBlock → Bool)
    (AST : AliasSetTracker) (toBB : BasicBlock) (S : List Value) (l : List Nat)
    (hS : ∀ i ∈ l, Admissible F AA DT AST toBB S i → Value.inst i ∈ S) :
    ∀ (uses : List Value) (did : Bool), (∀ v ∈ uses, v ∈ S) →
      ∀ v ∈ (getMovableUses.scan F AA DT AST toBB l (uses, did)).1, v ∈ S := by
  induction l with
  | nil =>
    intro uses did hsub v hv
    exact hsub v (by simpa [getMovableUses.scan] using hv)
  | cons i rest ih =>
    intro uses did hsub
    have hS' : ∀ j ∈ rest, Admissible F AA DT AST toBB S j → Value.inst j ∈ S :=
      fun j hj => hS j (List.mem_cons_of_mem _ hj)
    by_cases hc : Admissible F AA DT AST toBB uses i ∧ Value.inst i ∉ uses
    · rw [scan_cons_push F AA DT AST toBB i rest uses did hc]
      apply ih hS'
      intro v hv
      rcases List.mem_append.mp hv with h | h
      · exact hsub v h
      · rw [List.mem_singleton.mp h]
        exact hS i (List.mem_cons_self _ _) (hc.1.mono hsub)
    · rw [scan_cons_skip F AA DT AST toBB i rest uses did hc]
      exact ih hS' uses did hsub

/-- The result of `getMovableUses` is the least closed list: it is contained in every list
`S` that contains the start list and every instruction of `fromBB` admissible against `S`. -/
theorem getMovableUses_least (F : Func) (AA : AliasAnalysis) (DT : Nat → BasicBlock → Bool)
    (AST : AliasSetTracker) (fromBB toBB : BasicBlock) (S : List Value)
    (hS : ∀ i ∈ F.insts fromBB, Admissible F AA DT AST toBB S i → Value.inst i ∈ S) :
    ∀ (fuel : Nat) (uses R : List Value),
      getMovableUses F AA DT AST fromBB toBB fuel uses = some R →
      (∀ v ∈ uses, v ∈ S) → ∀ v ∈ R, v ∈ S := by
  intro fuel
  induction fuel with
  | zero => intro uses R h; simp [getMovableUses] at h
  | succ n ih =>
    intro uses R h hsub
    have hscan := scan_subset F AA DT AST toBB S (F.insts fromBB) hS uses false hsub
    rw [getMovableUses] at h
    by_cases hd : (getMovableUses.scan F AA DT AST toBB (F.insts fromBB) (uses, false)).2 = true
    · simp only [hd, if_true] at h
      exact ih _ R h hscan
    · simp only [hd] at h
      simp only [Bool.false_eq_true, if_false, Option.some.injEq] at h
      rw [← h]
      exact hscan

/-- C8 (confluence): two functions with the same instructions whose source blocks list
them in different orders (one sequence is a permutation of the other): `getMovableUses`
returns on both and admits the same instructions. -/
theorem getMovableUses_confluence (F F' : Func) (AA : AliasAnalysis)
    (DT : Nat → BasicBlock → Bool) (AST : AliasSetTracker) (fromBB toBB : BasicBlock)
    (hinst : F'.inst = F.inst) (hperm : (F'.insts fromBB).Perm (F.insts fromBB)) :
    ∃ R R',
      getMovableUses F AA DT AST fromBB toBB ((F.insts fromBB).length + 1) [] = some R ∧
      getMovableUses F' AA DT AST fromBB toBB ((F'.insts fromBB).length + 1) [] = some R' ∧
      ∀ v, v ∈ R ↔ v ∈ R' := by
  obtain ⟨R, hR, -, hfix⟩ := getMovableUses_loop F AA DT AST fromBB toBB
    ((F.insts fromBB).length + 1) []
    ⟨List.nodup_nil, fun v hv => absurd hv (List.not_mem_nil _)⟩ (by simp)
  obtain ⟨R', hR', -, hfix'⟩ := getMovableUses_loop F' AA DT AST fromBB toBB
    ((F'.insts fromBB).length + 1) []
    ⟨List.nodup_nil, fun v hv => absurd hv (List.not_mem_nil _)⟩ (by simp)
  refine ⟨R, R', hR, hR', fun v => ⟨?_, ?_⟩⟩
  · apply getMovableUses_least F AA DT AST fromBB toBB R' ?_ _ [] R hR
      (fun v hv => absurd hv (List.not_mem_nil _))
    intro i hi hadm
    exact hfix' i (hperm.mem_iff.mpr hi)
      ((admissible_congr F F' hinst AA DT AST toBB R' i).mpr hadm)
  · apply getMovableUses_least F' AA DT AST fromBB toBB R ?_ _ [] R' hR'
      (fun v hv => absurd hv (List.not_mem_nil _))
    intro i hi hadm
    exact hfix i (hperm.mem_iff.mp hi)
      ((admissible_congr F F' hinst AA DT AST toBB R i).mp hadm)

theorem getMovableUses_confluence_witness :
    ∃ R R',
      getMovableUses (twoAdds [0, 1]) noConstantMemory dominatesNothing storesToAddress7 1 0
        (((twoAdds [0, 1]).insts 1).length + 1) [] = some R ∧
      getMovableUses (twoAdds [1, 0]) noConstantMemory dominatesNothing storesToAddress7 1 0
        (((twoAdds [1, 0]).insts 1).length + 1) [] = some R' ∧
      ∀ v, v ∈ R ↔ v ∈ R' :=
  getMovableUses_confluence (twoAdds [0, 1]) (twoAdds [1, 0]) noConstantMemory
    dominatesNothing storesToAddress7 1 0 rfl (by decide)

/-- C9 (purity unconditionally movable): a binary operator `i` of the source block is
accepted by `canMoveInst` whatever the alias oracle `AST` answers, so for every `AST` the
run of `getMovableUses` returns a list `R` that contains `i` as soon as every operand of
`i` is in `R`, or is not an instruction, or is an instruction residing in the destination
block or dominating it. -/
theorem binaryOperator_admitted (F : Func) (AA : AliasAnalysis)
    (DT : Nat → BasicBlock → Bool) (fromBB toBB : BasicBlock) (i : Nat)
    (hi : i ∈ F.insts fromBB) (hk : (F.inst i).kind = InstKind.binaryOperator) :
    ∀ AST : AliasSetTracker,
      canMoveInst F AA AST i = true ∧
      ∃ R, getMovableUses F AA DT AST fromBB toBB ((F.insts fromBB).length + 1) [] = some R ∧
        ((∀ op ∈ (F.inst i).operands, op ∈ R ∨ (∃ v, op = Value.other v) ∨
            ∃ j, op = Value.inst j ∧ ((F.inst j).parent = toBB ∨ DT j toBB = true)) →
          Value.inst i ∈ R) := by
  intro AST
  have hcan : canMoveInst F AA AST i = true := by
    unfold canMoveInst
    rw [hk]
  obtain ⟨R, hR, -, hfix⟩ := getMovableUses_loop F AA DT AST fromBB toBB
    ((F.insts fromBB).length + 1) []
    ⟨List.nodup_nil, fun v hv => absurd hv (List.not_mem_nil _)⟩ (by simp)
  refine ⟨hcan, R, hR, fun hops => hfix i hi ⟨hcan, ?_⟩⟩
  rw [opsValid_iff]
  exact hops

theorem binaryOperator_admitted_witness :
    (canMoveInst (twoAdds [0, 1]) noConstantMemory storesToAddress7 0 = true ∧
      ∃ R, getMovableUses (twoAdds [0, 1]) noConstantMemory dominatesNothing storesToAddress7
          1 0 (((twoAdds [0, 1]).insts 1).length + 1) [] = some R ∧
        ((∀ op ∈ ((twoAdds [0, 1]).inst 0).operands, op ∈ R ∨ (∃ v, op = Value.other v) ∨
            ∃ j, op = Value.inst j ∧
              (((twoAdds [0, 1]).inst j).parent = 0 ∨ dominatesNothing j 0 = true)) →
          Value.inst 0 ∈ R)) ∧
    (canMoveInst (twoAdds [0, 1]) noConstantMemory modifiesEverything 0 = true ∧
      ∃ R, getMovableUses (twoAdds [0, 1]) noConstantMemory dominatesNothing modifiesEverything
          1 0 (((twoAdds [0, 1]).insts 1).length + 1) [] = some R ∧
        ((∀ op ∈ ((twoAdds [0, 1]).inst 0).operands, op ∈ R ∨ (∃ v, op = Value.other v) ∨
            ∃ j, op = Value.inst j ∧
              (((twoAdds [0, 1]).inst j).parent = 0 ∨ dominatesNothing j 0 = true)) →
          Value.inst 0 ∈ R)) :=
  ⟨binaryOperator_admitted (twoAdds [0, 1]) noConstantMemory dominatesNothing 1 0 0
      (by decide) (by decide) storesToAddress7,
    binaryOperator_admitted (twoAdds [0, 1]) noConstantMemory dominatesNothing 1 0 0
      (by decide) (by decide) modifiesEverything⟩

/-- Evaluation for C10 (aliasing veto): the load of `oneLoad` reads the address
`Value.other 7`, which the alias oracle `storesToAddress7` reports as possibly modified,
and it is neither constant nor invariant; yet `canMoveInst` accepts it and
`getMovableUses` returns it as a candidate, because the alias query is made on the load
instruction itself (`&I`), not on its address operand. -/
theorem getMovableUses_admits_modified_load :
    (oneLoad.inst 0).operands = [Value.other 7] ∧
    storesToAddress7.isMod (Value.other 7) 8 0 = true ∧
    noConstantMemory.pointsToConstantMemory (Value.other 7) = false ∧
    canMoveInst oneLoad noConstantMemory storesToAddress7 0 = true ∧
    getMovableUses oneLoad noConstantMemory dominatesNothing storesToAddress7 1 0 2 []
      = some [Value.inst 0] := by
  decide

/-- The answer of `canMoveInst` on an ordinary load that is neither proven constant nor
marked invariant: the negation of the alias query made on the load instruction itself,
with the store size of the loaded type, or 0 when the type is unsized. -/
theorem canMoveInst_ordinary_load (F : Func) (AA : AliasAnalysis) (AST : AliasSetTracker)
    (I : Nat) (LI : LoadInst) (hk : (F.inst I).kind = InstKind.load LI)
    (hu : LI.isUnordered = true)
    (hc : AA.pointsToConstantMemory ((F.inst I).operands.getD 0 (Value.other 0)) = false)
    (hi : LI.invariantLoad = false) :
    canMoveInst F AA AST I =
      !AST.isMod (Value.inst I) (if LI.typeSized then LI.typeStoreSize else 0) LI.aaInfo := by
  unfold canMoveInst
  rw [hk]
  simp only [hu, hc, hi, Bool.not_true, Bool.false_eq_true, if_false]

/-! ## Fuel of createChains -/

/-- More fuel does not change the result of a run that returned. -/
theorem createChains_fuel_succ (g : CFG) (DT PDT : BasicBlock → BasicBlock → Bool)
    (fuel : Nat) :
    (∀ chains BB r, createChains g DT PDT fuel chains BB = some r →
      createChains g DT PDT (fuel + 1) chains BB = some r) ∧
    (∀ chains index BB r,
      createChains.whileLoop g DT PDT fuel chains index BB = some r →
      createChains.whileLoop g DT PDT (fuel + 1) chains index BB = some r) ∧
    (∀ chains index BB ss did r,
      createChains.forLoop g DT PDT fuel chains index BB ss did = some r →
      createChains.forLoop g DT PDT (fuel + 1) chains index BB ss did = some r) := by
  induction fuel with
  | zero =>
    refine ⟨?_, ?_, ?_⟩
    · intro chains BB r h; simp [createChains] at h
    · intro chains index BB r h; simp [createChains.whileLoop] at h
    · intro chains index BB ss did r h; simp [createChains.forLoop] at h
  | succ n ih =>
    obtain ⟨ihA, ihB, ihC⟩ := ih
    refine ⟨?_, ?_, ?_⟩
    · intro chains BB r h
      rw [createChains] at h ⊢
      exact ihB _ _ _ _ h
    · intro chains index BB r h
      rw [createChains.whileLoop] at h ⊢
      cases hf : createChains.forLoop g DT PDT n chains index BB (successors g BB) false with
      | none => simp [hf] at h
      | some res =>
        obtain ⟨chains1, BB1, did1⟩ := res
        rw [ihC _ _ _ _ _ _ hf]
        simp only [hf] at h ⊢
        cases did1 with
        | true =>
          simp only [if_true] at h ⊢
          exact ihB _ _ _ _ h
        | false => simpa using h
    · intro chains index BB ss did r h
      cases ss with
      | nil =>
        simp only [createChains.forLoop] at h ⊢
        exact h
      | cons s ss =>
        rw [createChains.forLoop] at h ⊢
        by_cases hc : (DT BB s && PDT s BB) = true
        · simp only [hc, if_true] at h ⊢
          cases ha : appendAt g chains index s with
          | none => simp [ha] at h
          | some chains1 =>
            simp only [ha] at h ⊢
            exact ihC _ _ _ _ _ _ h
        · simp only [hc, if_false] at h ⊢
          by_cases hk : (chains.any fun c => c.contains s) = true
          · simp only [hk, if_true] at h ⊢
            exact ihC _ _ _ _ _ _ h
          · simp only [hk, if_false] at h ⊢
            cases hr : createChains g DT PDT n chains s with
            | none => simp [hr] at h
            | some chains1 =>
              rw [ihA _ _ _ hr]
              simp only [hr] at h ⊢
              exact ihC _ _ _ _ _ _ h

/-- A run of `createChains` that returned with fuel `n` returns the same chains with any
larger fuel. -/
theorem createChains_fuel_add (g : CFG) (DT PDT : BasicBlock → BasicBlock → Bool)
    (n k : Nat) (chains : List Chain) (BB : BasicBlock) (r : List Chain)
    (h : createChains g DT PDT n chains BB = some r) :
    createChains g DT PDT (n + k) chains BB = some r := by
  induction k with
  | zero => exact h
  | succ k ih => exact (createChains_fuel_succ g DT PDT (n + k)).1 _ _ _ ih

/-! ## The driver: raiseUses and runOnFunction -/

/-- Started on the empty list with one scan more than the source block has instructions,
`getMovableUses` returns a list that keeps the invariant and is closed. -/
theorem getMovableUses_returns (F : Func) (AA : AliasAnalysis) (DT : Nat → BasicBlock → Bool)
    (AST : AliasSetTracker) (fromBB toBB : BasicBlock) :
    ∃ R, getMovableUses F AA DT AST fromBB toBB ((F.insts fromBB).length + 1) [] = some R ∧
      UsesOk F AA DT AST fromBB toBB R ∧
      ∀ i ∈ F.insts fromBB, Admissible F AA DT AST toBB R i → Value.inst i ∈ R :=
  getMovableUses_loop F AA DT AST fromBB toBB ((F.insts fromBB).length + 1) []
    ⟨List.nodup_nil, fun v hv => absurd hv (List.not_mem_nil _)⟩ (by simp)

/-- The loop of `raiseUses` started at `i` below the length of the chain returns `i`
records; the record at position `j` reports the link between the blocks at positions
`i - j - 1` and `i - j` of the chain: its candidates are the result of `getMovableUses` on
the empty list, from the later block to the earlier one, with the alias scope built over
`blocksBetween (i - j - 1)`. -/
theorem raiseUses_loop_spec (F : Func) (AA : AliasAnalysis) (DT : Nat → BasicBlock → Bool)
    (scope : AliasScope) (chain : Chain) :
    ∀ i, i < chain.chain.length →
      ∃ rs, raiseUses.loop F AA DT scope chain i = some rs ∧ rs.length = i ∧
        ∀ j, j < i → ∃ fromBB toBB R,
          chain.chain[i - j]? = some fromBB ∧ chain.chain[i - j - 1]? = some toBB ∧
          getMovableUses F AA DT (scope (chain.blocksBetween (i - j - 1))) fromBB toBB
            ((F.insts fromBB).length + 1) [] = some R ∧
          rs[j]? = some { fromBB := fromBB, toBB := toBB,
                          through := chain.blocksBetween (i - j - 1), candidates := R } := by
  intro i
  induction i with
  | zero =>
    intro _
    exact ⟨[], rfl, rfl, fun j hj => absurd hj (Nat.not_lt_zero j)⟩
  | succ i ih =>
    intro hlt
    obtain ⟨rs, hrs, hlen, hrec⟩ := ih (by omega)
    have hfrom : chain.chain[i + 1]? = some (chain.chain[i + 1]) :=
      List.getElem?_eq_getElem hlt
    have hto : chain.chain[i]? = some (chain.chain[i]) :=
      List.getElem?_eq_getElem (by omega)
    obtain ⟨R, hR, -, -⟩ := getMovableUses_returns F AA DT (scope (chain.blocksBetween i))
      (chain.chain[i + 1]) (chain.chain[i])
    refine ⟨{ fromBB := chain.chain[i + 1], toBB := chain.chain[i],
              through := chain.blocksBetween i, candidates := R } :: rs, ?_, ?_, ?_⟩
    · rw [raiseUses.loop]
      simp only [hfrom, hto, hR, hrs]
    · simp [hlen]
    · intro j hj
      cases j with
      | zero =>
        simp only [Nat.sub_zero, Nat.add_sub_cancel]
        exact ⟨chain.chain[i + 1], chain.chain[i], R, hfrom, hto, hR, by simp⟩
      | succ j =>
        obtain ⟨a, b, R', h1, h2, h3, h4⟩ := hrec j (by omega)
        have e1 : i + 1 - (j + 1) = i - j := by omega
        refine ⟨a, b, R', ?_, ?_, ?_, ?_⟩
        · rw [e1]; exact h1
        · rw [e1]; exact h2
        · rw [e1]; exact h3
        · rw [e1]; simpa using h4

/-- The method `raiseUses` returns on every non-empty chain, with one record less than
the chain has blocks. -/
theorem raiseUses_returns (F : Func) (AA : AliasAnalysis) (DT : Nat → BasicBlock → Bool)
    (scope : AliasScope) (chain : Chain) (hne : chain.chain ≠ []) :
    ∃ rs, raiseUses F AA DT scope chain = some rs ∧ rs.length = chain.chain.length - 1 := by
  have hpos : 0 < chain.chain.length := List.length_pos.mpr hne
  obtain ⟨rs, h1, h2, -⟩ := raiseUses_loop_spec F AA DT scope chain (chain.chain.length - 1)
    (by omega)
  exact ⟨rs, h1, h2⟩

/-- The value `runOnFunction` returns, when it returns, is `false`. -/
theorem runOnFunction_fst (F : Func) (AA : AliasAnalysis)
    (DT PDT : BasicBlock → BasicBlock → Bool) (DTI : Nat → BasicBlock → Bool)
    (scope : AliasScope) (fuel : Nat) (r : Bool × List Record)
    (h : runOnFunction F AA DT PDT DTI scope fuel = some r) : r.1 = false := by
  unfold runOnFunction at h
  cases hc : createChains F.cfg DT PDT fuel [] F.getEntryBlock with
  | none => simp [hc] at h
  | some chains =>
    simp only [hc] at h
    cases hr : runOnFunction.raise F AA DTI scope (chains.filter fun c => !c.singleElem) with
    | none => simp [hr] at h
    | some records =>
      simp only [hr, Option.some.injEq] at h
      rw [← h]

/-! ## The value returned by runOnFunction -/

theorem raiseUses_total (F : Func) (AA : AliasAnalysis) (DT : Nat → BasicBlock → Bool)
    (scope : AliasScope) (chain : Chain) : ∃ rs, raiseUses F AA DT scope chain = some rs := by
  by_cases hne : chain.chain = []
  · exact ⟨[], by simp [raiseUses, hne, raiseUses.loop]⟩
  · obtain ⟨rs, h, -⟩ := raiseUses_returns F AA DT scope chain hne
    exact ⟨rs, h⟩

theorem raise_total (F : Func) (AA : AliasAnalysis) (DT : Nat → BasicBlock → Bool)
    (scope : AliasScope) (chains : List Chain) :
    ∃ rs, runOnFunction.raise F AA DT scope chains = some rs := by
  induction chains with
  | nil => exact ⟨[], rfl⟩
  | cons c cs ih =>
    obtain ⟨r1, h1⟩ := raiseUses_total F AA DT scope c
    obtain ⟨r2, h2⟩ := ih
    exact ⟨r1 ++ r2, by simp [runOnFunction.raise, h1, h2]⟩

/-- Counterexample for C13 (driver return value): on the linear function with an addition in block
`B`, `runOnFunction` prints two records and returns `false`. -/
theorem runOnFunction_false_with_records :
    runOnFunction (linearAdd 1) noConstantMemory (dominates linear 0) (postDominates linear)
        dominatesNothing noWrites 10
      = some (false, [{ fromBB := 2, toBB := 1, through := [], candidates := [] },
          { fromBB := 1, toBB := 0, through := [], candidates := [Value.inst 0] }]) := by
  decide

/-- C13 (driver return value), amended: whenever chain construction returns,
`runOnFunction` returns, and the value it returns is `false`, whether or not records were
printed. -/
theorem runOnFunction_returns_false (F : Func) (AA : AliasAnalysis)
    (DT PDT : BasicBlock → BasicBlock → Bool) (DTI : Nat → BasicBlock → Bool)
    (scope : AliasScope) (fuel : Nat) (chains : List Chain)
    (h : createChains F.cfg DT PDT fuel [] F.getEntryBlock = some chains) :
    ∃ records, runOnFunction.raise F AA DTI scope (chains.filter fun c => !c.singleElem)
        = some records ∧
      runOnFunction F AA DT PDT DTI scope fuel = some (false, records) := by
  obtain ⟨records, hr⟩ := raise_total F AA DTI scope (chains.filter fun c => !c.singleElem)
  refine ⟨records, hr, ?_⟩
  unfold runOnFunction
  simp only [h, hr]

theorem runOnFunction_returns_false_witness :
    ∃ records, runOnFunction.raise (linearAdd 1) noConstantMemory dominatesNothing noWrites
        ([({ chain := [0, 1, 2], between := [(1, []), (0, [])] } : Chain)].filter
          fun c => !c.singleElem) = some records ∧
      runOnFunction (linearAdd 1) noConstantMemory (dominates linear 0) (postDominates linear)
        dominatesNothing noWrites 10 = some (false, records) :=
  runOnFunction_returns_false (linearAdd 1) noConstantMemory (dominates linear 0)
    (postDominates linear) dominatesNothing noWrites 10 _ (by decide)

/-! ## Scenarios A, B and C -/

theorem runOnFunction_eq (F : Func) (AA : AliasAnalysis)
    (DT PDT : BasicBlock → BasicBlock → Bool) (DTI : Nat → BasicBlock → Bool)
    (scope : AliasScope) (fuel : Nat) (chains : List Chain) (records : List Record)
    (h : createChains F.cfg DT PDT fuel [] F.getEntryBlock = some chains)
    (hr : runOnFunction.raise F AA DTI scope (chains.filter fun c => !c.singleElem)
      = some records) :
    runOnFunction F AA DT PDT DTI scope fuel = some (false, records) := by
  unfold runOnFunction
  simp only [h, hr]

/-- C14 (scenario A): on the diamond `A -> {B, C} -> D` with root `A` and the dominance
and post-dominance relations of the graph, for either order of the successors of `A` and
any fuel from 10 on, `createChains` returns four chains of one block each; whatever the
instructions of the blocks, `runOnFunction` then calls `raiseUses` on no chain and prints
no record. -/
theorem diamond_chains_trivial (insts : BasicBlock → List Nat) (inst : Nat → Instruction)
    (AA : AliasAnalysis) (DTI : Nat → BasicBlock → Bool) (scope : AliasScope) (fuel : Nat) :
    (createChains (diamond [1, 2]) (dominates (diamond [1, 2]) 0)
          (postDominates (diamond [1, 2])) (10 + fuel) [] 0
        = some [Chain.init 0, Chain.init 1, Chain.init 3, Chain.init 2] ∧
      createChains (diamond [2, 1]) (dominates (diamond [2, 1]) 0)
          (postDominates (diamond [2, 1])) (10 + fuel) [] 0
        = some [Chain.init 0, Chain.init 2, Chain.init 3, Chain.init 1]) ∧
    ((∀ c ∈ [Chain.init 0, Chain.init 1, Chain.init 3, Chain.init 2], c.chain.length = 1) ∧
      ∀ c ∈ [Chain.init 0, Chain.init 2, Chain.init 3, Chain.init 1], c.chain.length = 1) ∧
    ([Chain.init 0, Chain.init 1, Chain.init 3, Chain.init 2].filter
        (fun c => !c.singleElem) = [] ∧
      [Chain.init 0, Chain.init 2, Chain.init 3, Chain.init 1].filter
        (fun c => !c.singleElem) = []) ∧
    (runOnFunction { cfg := diamond [1, 2], insts := insts, inst := inst } AA
          (dominates (diamond [1, 2]) 0) (postDominates (diamond [1, 2])) DTI scope
          (10 + fuel) = some (false, []) ∧
      runOnFunction { cfg := diamond [2, 1], insts := insts, inst := inst } AA
          (dominates (diamond [2, 1]) 0) (postDominates (diamond [2, 1])) DTI scope
          (10 + fuel) = some (false, [])) := by
  have h1 := createChains_fuel_add (diamond [1, 2]) (dominates (diamond [1, 2]) 0)
    (postDominates (diamond [1, 2])) 10 fuel [] 0 _ (by decide :
      createChains (diamond [1, 2]) (dominates (diamond [1, 2]) 0)
          (postDominates (diamond [1, 2])) 10 [] 0
        = some [Chain.init 0, Chain.init 1, Chain.init 3, Chain.init 2])
  have h2 := createChains_fuel_add (diamond [2, 1]) (dominates (diamond [2, 1]) 0)
    (postDominates (diamond [2, 1])) 10 fuel [] 0 _ (by decide :
      createChains (diamond [2, 1]) (dominates (diamond [2, 1]) 0)
          (postDominates (diamond [2, 1])) 10 [] 0
        = some [Chain.init 0, Chain.init 2, Chain.init 3, Chain.init 1])
  refine ⟨⟨h1, h2⟩, ⟨by decide, by decide⟩, ⟨by decide, by decide⟩, ?_, ?_⟩
  · exact runOnFunction_eq _ AA _ _ DTI scope _ _ [] h1 rfl
  · exact runOnFunction_eq _ AA _ _ DTI scope _ _ [] h2 rfl

theorem intersection_eq_nil_of_only_successor (g : CFG) (prev next : BasicBlock)
    (honly : ∀ s ∈ successors g prev, s = next) : intersection g prev next = some [] := by
  obtain ⟨inter, hi, hmem⟩ := intersection_spec g prev next
  have hno : ∀ b, ¬ Reach (successors g) next prev b := by
    intro b hb
    induction hb with
    | base h1 h2 => exact h2 (honly _ h1)
    | step _ _ _ ih => exact ih
  have : inter = [] := List.eq_nil_iff_forall_not_mem.mpr fun b hb => hno b ((hmem b).mp hb).1
  rw [hi, this]

/-- C15 (scenario B, chain part): on the linear graph `A -> B -> C` with root `A` and the
dominance relations of the graph, `createChains` returns, for any fuel from 6 on, the one
chain `[A, B, C]`, and the Between-Sets of its two links are empty. More generally, on a
chain whose last block `prev` has no successor other than `next`, `Chain::append` of
`next` stores an empty Between-Set for the link. -/
theorem linear_chain_and_only_successor (fuel : Nat) (g : CFG) (c : Chain)
    (prev next : BasicBlock) (hlast : c.chain.getLast? = some prev)
    (honly : ∀ s ∈ successors g prev, s = next) :
    createChains linear (dominates linear 0) (postDominates linear) (6 + fuel) [] 0
      = some [{ chain := [0, 1, 2], between := [(1, []), (0, [])] }] ∧
    Chain.blocksBetween { chain := [0, 1, 2], between := [(1, []), (0, [])] } 0 = [] ∧
    Chain.blocksBetween { chain := [0, 1, 2], between := [(1, []), (0, [])] } 1 = [] ∧
    ∃ c', c.append g next = some c' ∧ c'.chain = c.chain ++ [next] ∧
      c'.blocksBetween (c.chain.length - 1) = [] := by
  refine ⟨createChains_fuel_add linear (dominates linear 0) (postDominates linear) 6 fuel [] 0
    _ (by decide), by decide, by decide, ?_⟩
  obtain ⟨inter, ha, hi⟩ := append_spec g c prev next hlast
  rw [intersection_eq_nil_of_only_successor g prev next honly] at hi
  cases hi
  exact ⟨_, ha, rfl, blocksBetween_append c prev next [] hlast⟩

theorem linear_chain_and_only_successor_witness :
    createChains linear (dominates linear 0) (postDominates linear) (6 + 0) [] 0
      = some [{ chain := [0, 1, 2], between := [(1, []), (0, [])] }] ∧
    Chain.blocksBetween { chain := [0, 1, 2], between := [(1, []), (0, [])] } 0 = [] ∧
    Chain.blocksBetween { chain := [0, 1, 2], between := [(1, []), (0, [])] } 1 = [] ∧
    ∃ c', Chain.append [[1], [2, 2], [0]] { chain := [0, 1], between := [(0, [])] } 2
        = some c' ∧
      c'.chain = [0, 1] ++ [2] ∧ c'.blocksBetween ([0, 1].length - 1) = [] :=
  linear_chain_and_only_successor 0 [[1], [2, 2], [0]]
    { chain := [0, 1], between := [(0, [])] } 1 2 (by decide) (by decide)

/-- C17 (scenario C): on the graph with the detour `B -> C`, `B -> X`, `X -> C`, for either
order of the successors of `B`, `Chain::append` of `C` to any chain that ends in `B`
stores exactly `{X}` as the Between-Set of the link `(B, C)`; and `createChains` from the
entry, with the dominance relations of the graph, builds the chain `[A, B, C]` with that
Between-Set. -/
theorem detour_between (pre : List BasicBlock) (bw : List (BasicBlock × List BasicBlock))
    (fuel : Nat) :
    (Chain.append (detour [2, 3]) { chain := pre ++ [1], between := bw } 2
        = some { chain := pre ++ [1] ++ [2], between := (1, [3]) :: bw } ∧
      Chain.append (detour [3, 2]) { chain := pre ++ [1], between := bw } 2
        = some { chain := pre ++ [1] ++ [2], between := (1, [3]) :: bw }) ∧
    Chain.blocksBetween { chain := pre ++ [1] ++ [2], between := (1, [3]) :: bw }
        ((pre ++ [1]).length - 1) = [3] ∧
    ((createChains (detour [2, 3]) (dominates (detour [2, 3]) 0)
          (postDominates (detour [2, 3])) (10 + fuel) [] 0).map
        (fun chains => chains.map fun c => (c.chain, c.blocksBetween 1))
        = some [([0, 1, 2], [3]), ([3], [])] ∧
      (createChains (detour [3, 2]) (dominates (detour [3, 2]) 0)
          (postDominates (detour [3, 2])) (10 + fuel) [] 0).map
        (fun chains => chains.map fun c => (c.chain, c.blocksBetween 1))
        = some [([0, 1, 2], [3]), ([3], []), ([2], [])]) := by
  have hl : ({ chain := pre ++ [1], between := bw } : Chain).chain.getLast? = some 1 := by
    simp
  refine ⟨⟨?_, ?_⟩, ?_, ?_, ?_⟩
  · obtain ⟨inter, ha, hi⟩ := append_spec (detour [2, 3]) _ 1 2 hl
    have : intersection (detour [2, 3]) 1 2 = some [3] := by decide
    rw [this] at hi
    cases hi
    exact ha
  · obtain ⟨inter, ha, hi⟩ := append_spec (detour [3, 2]) _ 1 2 hl
    have : intersection (detour [3, 2]) 1 2 = some [3] := by decide
    rw [this] at hi
    cases hi
    exact ha
  · exact blocksBetween_append { chain := pre ++ [1], between := bw } 1 2 [3] hl
  · rw [createChains_fuel_add (detour [2, 3]) _ _ 10 fuel [] 0 _ (by decide :
      createChains (detour [2, 3]) (dominates (detour [2, 3]) 0)
        (postDominates (detour [2, 3])) 10 [] 0
      = some [{ chain := [0, 1, 2], between := [(1, [3]), (0, [])] },
          { chain := [3], between := [] }])]
    decide
  · rw [createChains_fuel_add (detour [3, 2]) _ _ 10 fuel [] 0 _ (by decide :
      createChains (detour [3, 2]) (dominates (detour [3, 2]) 0)
        (postDominates (detour [3, 2])) 10 [] 0
      = some [{ chain := [0, 1, 2], between := [(1, [3]), (0, [])] },
          { chain := [3], between := [] }, { chain := [2], between := [] }])]
    decide

/-! ## Scenario B: the candidates of the link -/

/-- Counterexample for C16 (scenario B, candidate part): on the linear chain `[A, B, C]`, with an
addition of two non-instruction values located in block `A` (instruction `0`), the record
`raiseUses` prints for the link `(A, B)` scans block `B` with destination `A`; the
addition is in no candidate list. -/
theorem linear_add_in_A_not_reported :
    (linearAdd 0).insts 0 = [0, 1] ∧
    ((linearAdd 0).inst 0).kind = InstKind.binaryOperator ∧
    ((linearAdd 0).inst 0).operands = [Value.other 3, Value.other 4] ∧
    runOnFunction (linearAdd 0) noConstantMemory (dominates linear 0) (postDominates linear)
        dominatesNothing noWrites 10
      = some (false, [{ fromBB := 2, toBB := 1, through := [], candidates := [] },
          { fromBB := 1, toBB := 0, through := [], candidates := [] }]) := by
  decide

/-- C16 (scenario B, candidate part), amended: on the linear chain `[A, B, C]`, for a
function on the linear graph, `runOnFunction` prints two records, first the one that scans
`C` with destination `B`, then the one of the link `(A, B)`, which scans `B` with
destination `A`; a binary operator located in block `B` whose operands are all
non-instruction values is in the candidate list of the record of the link `(A, B)`. -/
theorem linear_add_in_B_reported (F : Func) (hcfg : F.cfg = linear) (AA : AliasAnalysis)
    (DTI : Nat → BasicBlock → Bool) (scope : AliasScope) (fuel : Nat) (i : Nat)
    (hi : i ∈ F.insts 1) (hk : (F.inst i).kind = InstKind.binaryOperator)
    (hops : ∀ op ∈ (F.inst i).operands, ∃ v, op = Value.other v) :
    ∃ R2 R1,
      runOnFunction F AA (dominates linear 0) (postDominates linear) DTI scope (6 + fuel)
        = some (false, [{ fromBB := 2, toBB := 1, through := [], candidates := R2 },
            { fromBB := 1, toBB := 0, through := [], candidates := R1 }]) ∧
      Value.inst i ∈ R1 := by
  obtain ⟨R2, hR2, -, -⟩ := getMovableUses_returns F AA DTI (scope []) 2 1
  obtain ⟨R1, hR1, -, hfix⟩ := getMovableUses_returns F AA DTI (scope []) 1 0
  have hchains : createChains F.cfg (dominates linear 0) (postDominates linear) (6 + fuel) []
      F.getEntryBlock = some [{ chain := [0, 1, 2], between := [(1, []), (0, [])] }] := by
    rw [hcfg]
    exact createChains_fuel_add linear (dominates linear 0) (postDominates linear) 6 fuel [] 0
      _ (by decide)
  have hraise : runOnFunction.raise F AA DTI scope
      ([({ chain := [0, 1, 2], between := [(1, []), (0, [])] } : Chain)].filter
        fun c => !c.singleElem)
      = some [{ fromBB := 2, toBB := 1, through := [], candidates := R2 },
          { fromBB := 1, toBB := 0, through := [], candidates := R1 }] := by
    have hf : ([({ chain := [0, 1, 2], between := [(1, []), (0, [])] } : Chain)].filter
        fun c => !c.singleElem)
        = [{ chain := [0, 1, 2], between := [(1, []), (0, [])] }] := by decide
    have hb0 : Chain.blocksBetween { chain := [0, 1, 2], between := [(1, []), (0, [])] } 0
        = [] := by decide
    have hb1 : Chain.blocksBetween { chain := [0, 1, 2], between := [(1, []), (0, [])] } 1
        = [] := by decide
    rw [hf]
    simp only [runOnFunction.raise, raiseUses, raiseUses.loop, List.length_cons,
      List.length_nil, Nat.reduceAdd, Nat.add_one_sub_one, List.getElem?_cons_succ,
      List.getElem?_cons_zero, hb0, hb1, hR2, hR1, List.append_nil]
  refine ⟨R2, R1, runOnFunction_eq F AA _ _ DTI scope _ _ _ hchains hraise, ?_⟩
  refine hfix i hi ⟨?_, ?_⟩
  · unfold canMoveInst
    rw [hk]
  · rw [opsValid_iff]
    intro op hop
    exact Or.inr (Or.inl (hops op hop))

theorem linear_add_in_B_reported_witness :
    ∃ R2 R1,
      runOnFunction (linearAdd 1) noConstantMemory (dominates linear 0) (postDominates linear)
          dominatesNothing noWrites (6 + 0)
        = some (false, [{ fromBB := 2, toBB := 1, through := [], candidates := R2 },
            { fromBB := 1, toBB := 0, through := [], candidates := R1 }]) ∧
      Value.inst 0 ∈ R1 :=
  linear_add_in_B_reported (linearAdd 1) rfl noConstantMemory dominatesNothing noWrites 0 0
    (by decide) (by decide) (by
      intro op hop
      have h : op = Value.other 3 ∨ op = Value.other 4 := by simpa [linearAdd] using hop
      rcases h with rfl | rfl
      · exact ⟨3, rfl⟩
      · exact ⟨4, rfl⟩)

/-! ## Loads: the alias veto and atomic loads -/

/-- Evaluation for C11 (aliasing veto, inclusion half): the load of `oneLoad` is ordinary
(not volatile, not atomic), neither constant nor invariant, its only operand is not an
instruction, and the alias oracle `modifiesLoadedValue` reports no possible modification
of the location it reads (eight bytes at the address `Value.other 7`); yet `canMoveInst`
rejects it and `getMovableUses` returns no candidate, because the alias query of line 179
is made on the load instruction itself (`&I`), for which this oracle answers yes. Under
an oracle that answers no for `&I` as well, the same run returns the load. -/
theorem getMovableUses_omits_load_of_unmodified_address :
    oneLoad.insts 1 = [0] ∧
    (oneLoad.inst 0).kind
      = InstKind.load { isVolatile := false, ordering := AtomicOrdering.notAtomic,
                        invariantLoad := false, typeSized := true, typeStoreSize := 8,
                        aaInfo := 0 } ∧
    (oneLoad.inst 0).operands = [Value.other 7] ∧
    noConstantMemory.pointsToConstantMemory (Value.other 7) = false ∧
    modifiesLoadedValue.isMod (Value.other 7) 8 0 = false ∧
    modifiesLoadedValue.isMod (Value.inst 0) 8 0 = true ∧
    canMoveInst oneLoad noConstantMemory modifiesLoadedValue 0 = false ∧
    getMovableUses oneLoad noConstantMemory dominatesNothing modifiesLoadedValue 1 0 2 []
      = some [] ∧
    getMovableUses oneLoad noConstantMemory dominatesNothing (noWrites []) 1 0 2 []
      = some [Value.inst 0] := by
  decide

/-- The operand test of `getMovableUses` (lines 206-221) applies to loads as to every other
instruction: the load of `loadOfCall` is ordinary, neither constant nor invariant, and the
alias oracle reports no possible modification of any location; the load is not in the list
`getMovableUses` returns, because its address is computed by an instruction of the scanned
block that cannot be moved. -/
theorem getMovableUses_omits_unmodified_load :
    loadOfCall.insts 1 = [0, 1] ∧
    (loadOfCall.inst 1).operands = [Value.inst 0] ∧
    noConstantMemory.pointsToConstantMemory (Value.inst 0) = false ∧
    (noWrites []).isMod (Value.inst 0) 8 0 = false ∧
    (noWrites []).isMod (Value.inst 1) 8 0 = false ∧
    canMoveInst loadOfCall noConstantMemory (noWrites []) 1 = true ∧
    getMovableUses loadOfCall noConstantMemory dominatesNothing (noWrites []) 1 0 3 []
      = some [] := by
  decide

/-- Under an alias oracle whose answer does not depend on the queried location, the pointer
passed at line 179 makes no difference: a load `i` of the scanned block that passes the
`isUnordered` guard, for whose access size and metadata the oracle reports no possible
modification whichever location is queried, is in the list `R` that `getMovableUses`
returns as soon as every operand of `i` is in `R`, or is not an instruction, or is an
instruction residing in the destination block or dominating it. -/
theorem unmodified_load_admitted (F : Func) (AA : AliasAnalysis)
    (DT : Nat → BasicBlock → Bool) (AST : AliasSetTracker) (fromBB toBB : BasicBlock)
    (i : Nat) (LI : LoadInst) (hi : i ∈ F.insts fromBB)
    (hk : (F.inst i).kind = InstKind.load LI) (hu : LI.isUnordered = true)
    (hmod : ∀ P, AST.isMod P (if LI.typeSized then LI.typeStoreSize else 0) LI.aaInfo
      = false) :
    canMoveInst F AA AST i = true ∧
    ∃ R, getMovableUses F AA DT AST fromBB toBB ((F.insts fromBB).length + 1) [] = some R ∧
      ((∀ op ∈ (F.inst i).operands, op ∈ R ∨ (∃ v, op = Value.other v) ∨
          ∃ j, op = Value.inst j ∧ ((F.inst j).parent = toBB ∨ DT j toBB = true)) →
        Value.inst i ∈ R) := by
  have hcan : canMoveInst F AA AST i = true := by
    unfold canMoveInst
    rw [hk]
    simp only [hu, hmod, Bool.not_true, Bool.false_eq_true, if_false, Bool.not_false,
      ite_self]
  obtain ⟨R, hR, -, hfix⟩ := getMovableUses_returns F AA DT AST fromBB toBB
  refine ⟨hcan, R, hR, fun hops => hfix i hi ⟨hcan, ?_⟩⟩
  rw [opsValid_iff]
  exact hops

theorem unmodified_load_admitted_witness :
    canMoveInst oneLoad noConstantMemory (noWrites []) 0 = true ∧
    ∃ R, getMovableUses oneLoad noConstantMemory dominatesNothing (noWrites []) 1 0
        ((oneLoad.insts 1).length + 1) [] = some R ∧
      ((∀ op ∈ (oneLoad.inst 0).operands, op ∈ R ∨ (∃ v, op = Value.other v) ∨
          ∃ j, op = Value.inst j ∧
            ((oneLoad.inst j).parent = 0 ∨ dominatesNothing j 0 = true)) →
        Value.inst 0 ∈ R) :=
  unmodified_load_admitted oneLoad noConstantMemory dominatesNothing (noWrites []) 1 0 0
    { isVolatile := false, ordering := AtomicOrdering.notAtomic, invariantLoad := false,
      typeSized := true, typeStoreSize := 8, aaInfo := 0 }
    (by decide) rfl (by decide) (fun _ => rfl)

/-- The loads `canMoveInst` rejects at its first test: the volatile ones and the atomic
ones whose ordering is neither `NotAtomic` nor `Unordered`, whatever the oracles answer. -/
theorem canMoveInst_rejects_ordered_load (F : Func) (AA : AliasAnalysis)
    (AST : AliasSetTracker) (I : Nat) (LI : LoadInst)
    (hk : (F.inst I).kind = InstKind.load LI)
    (h : LI.isVolatile = true ∨
      (LI.ordering ≠ AtomicOrdering.notAtomic ∧ LI.ordering ≠ AtomicOrdering.unordered)) :
    canMoveInst F AA AST I = false := by
  have hu : LI.isUnordered = false := by
    unfold LoadInst.isUnordered
    rcases h with h | ⟨h1, h2⟩
    · simp [h]
    · simp [h1, h2]
  unfold canMoveInst
  rw [hk]
  simp [hu]

/-- Evaluation for C12 (scenario D): the load of `unorderedAtomicLoad` is atomic, with
ordering `unordered`; `isUnordered` holds of it, so `canMoveInst` does not reject it at
line 161, although the comment of line 162 says that atomic loads are not hoisted; it
accepts the load when the alias query reports no modification, and `getMovableUses`
returns it as a candidate. -/
theorem getMovableUses_admits_atomic_load :
    (unorderedAtomicLoad.inst 0).kind
      = InstKind.load { isVolatile := false, ordering := AtomicOrdering.unordered,
                        invariantLoad := false, typeSized := true, typeStoreSize := 8,
                        aaInfo := 0 } ∧
    canMoveInst unorderedAtomicLoad noConstantMemory (noWrites []) 0 = true ∧
    getMovableUses unorderedAtomicLoad noConstantMemory dominatesNothing (noWrites []) 1 0 2 []
      = some [Value.inst 0] := by
  decide

/-! ## The classifier canMoveInst -/

/-- Counterexample for C18 (classifier on non-load instructions): `canMoveInst` accepts a `select`
and a `getelementptr`, which are not among the kinds the spec lists. -/
theorem canMoveInst_accepts_select_and_gep :
    (canMoveInst (oneInst InstKind.selectInst) noConstantMemory modifiesEverything 0 = true ∧
      specListedKind ((oneInst InstKind.selectInst).inst 0).kind = false) ∧
    (canMoveInst (oneInst InstKind.getElementPtrInst) noConstantMemory modifiesEverything 0
        = true ∧
      specListedKind ((oneInst InstKind.getElementPtrInst).inst 0).kind = false) := by
  decide

/-- C18 (classifier on non-load instructions), amended: on an instruction that is not a
load, `canMoveInst` returns true if and only if the instruction is of one of the kinds the
spec lists or a `select` or a `getelementptr`; every other instruction is rejected, and the
answer depends neither on the alias analysis nor on the alias oracle. -/
theorem canMoveInst_non_load (F : Func) (AA : AliasAnalysis) (AST : AliasSetTracker) (i : Nat)
    (hnl : ∀ LI, (F.inst i).kind ≠ InstKind.load LI) :
    (canMoveInst F AA AST i = true ↔
      specListedKind (F.inst i).kind = true ∨ (F.inst i).kind = InstKind.selectInst ∨
        (F.inst i).kind = InstKind.getElementPtrInst) ∧
    ((F.inst i).kind = InstKind.otherInst → canMoveInst F AA AST i = false) ∧
    ∀ (AA' : AliasAnalysis) (AST' : AliasSetTracker),
      canMoveInst F AA' AST' i = canMoveInst F AA AST i := by
  unfold canMoveInst
  cases hk : (F.inst i).kind with
  | load LI => exact absurd hk (hnl LI)
  | binaryOperator => simp [specListedKind]
  | castInst => simp [specListedKind]
  | selectInst => simp [specListedKind]
  | getElementPtrInst => simp [specListedKind]
  | cmpInst => simp [specListedKind]
  | insertElementInst => simp [specListedKind]
  | extractElementInst => simp [specListedKind]
  | shuffleVectorInst => simp [specListedKind]
  | extractValueInst => simp [specListedKind]
  | insertValueInst => simp [specListedKind]
  | otherInst => simp [specListedKind]

theorem canMoveInst_non_load_witness :
    (canMoveInst (oneInst InstKind.cmpInst) noConstantMemory modifiesEverything 0 = true ↔
      specListedKind ((oneInst InstKind.cmpInst).inst 0).kind = true ∨
        ((oneInst InstKind.cmpInst).inst 0).kind = InstKind.selectInst ∨
        ((oneInst InstKind.cmpInst).inst 0).kind = InstKind.getElementPtrInst) ∧
    (((oneInst InstKind.cmpInst).inst 0).kind = InstKind.otherInst →
      canMoveInst (oneInst InstKind.cmpInst) noConstantMemory modifiesEverything 0 = false) ∧
    ∀ (AA' : AliasAnalysis) (AST' : AliasSetTracker),
      canMoveInst (oneInst InstKind.cmpInst) AA' AST' 0
        = canMoveInst (oneInst InstKind.cmpInst) noConstantMemory modifiesEverything 0 :=
  canMoveInst_non_load (oneInst InstKind.cmpInst) noConstantMemory modifiesEverything 0
    (by intro LI h; cases h)

/-- Evaluation for C19 (alias query arguments): on the ordinary load of `oneLoad`, neither constant
nor invariant, which reads eight bytes at the address `Value.other 7`, `canMoveInst`
returns true although the oracle `storesToAddress7` reports a modification for the query
(address, 8, metadata), and returns false under `modifiesLoadedValue` although that query
reports none: the pointer passed at line 179 is `&I`, the load itself. -/
theorem canMoveInst_queries_load_itself :
    (oneLoad.inst 0).operands.getD 0 (Value.other 0) = Value.other 7 ∧
    (storesToAddress7.isMod (Value.other 7) 8 0 = true ∧
      canMoveInst oneLoad noConstantMemory storesToAddress7 0 = true) ∧
    (modifiesLoadedValue.isMod (Value.other 7) 8 0 = false ∧
      canMoveInst oneLoad noConstantMemory modifiesLoadedValue 0 = false) ∧
    (storesToAddress7.isMod (Value.inst 0) 8 0 = false ∧
      modifiesLoadedValue.isMod (Value.inst 0) 8 0 = true) := by
  decide

/-! ## The alias scope of a repeated block -/

/-- Evaluation for C20 (driver link walk): on the graph `repeatedBlock` with the dominance relations
of the graph, `createChains` builds the chain `[A, B, B, C]`. For the link between its
second and third block, `(B, B)`, `Chain::append` computed the Between-Set `{X}`; the later
append of `C` stored the empty set of the link `(B, C)` under the same key `B`. `raiseUses`
prints three records, from the tail toward the head, but the record of the link `(B, B)`
is computed from the scope over `blocksBetween(1)`, which is empty: it reports the load of
`B` as a candidate, which the scope over `{X}` vetoes. -/
theorem raiseUses_repeated_block_scope :
    createChains repeatedBlock (dominates repeatedBlock 0) (postDominates repeatedBlock) 12 [] 0
      = some [{ chain := [0, 1, 1, 3], between := [(1, []), (1, [2]), (0, [])] },
          { chain := [2], between := [] }] ∧
    Chain.append repeatedBlock { chain := [0, 1], between := [(0, [])] } 1
      = some { chain := [0, 1, 1], between := [(1, [2]), (0, [])] } ∧
    Chain.blocksBetween { chain := [0, 1, 1, 3], between := [(1, []), (1, [2]), (0, [])] } 1
      = [] ∧
    raiseUses repeatedBlockLoad noConstantMemory dominatesNothing block2Writes
        { chain := [0, 1, 1, 3], between := [(1, []), (1, [2]), (0, [])] }
      = some [{ fromBB := 3, toBB := 1, through := [], candidates := [] },
          { fromBB := 1, toBB := 1, through := [], candidates := [Value.inst 0] },
          { fromBB := 1, toBB := 0, through := [], candidates := [Value.inst 0] }] ∧
    getMovableUses repeatedBlockLoad noConstantMemory dominatesNothing (block2Writes [2]) 1 1
        2 [] = some [] := by
  decide

/-! ## Volatile and ordered atomic loads -/

/-- The loads the guard of line 161 does keep out: for every link and every answer of the
oracles, a load that is volatile, or atomic with an ordering other than `unordered`, is
rejected by `canMoveInst`, and is not in the list `getMovableUses` returns. -/
theorem ordered_load_never_candidate (F : Func) (AA : AliasAnalysis)
    (DT : Nat → BasicBlock → Bool) (AST : AliasSetTracker) (fromBB toBB : BasicBlock)
    (I : Nat) (LI : LoadInst) (hk : (F.inst I).kind = InstKind.load LI)
    (h : LI.isVolatile = true ∨
      (LI.ordering ≠ AtomicOrdering.notAtomic ∧ LI.ordering ≠ AtomicOrdering.unordered)) :
    canMoveInst F AA AST I = false ∧
    ∃ R, getMovableUses F AA DT AST fromBB toBB ((F.insts fromBB).length + 1) [] = some R ∧
      Value.inst I ∉ R := by
  have hcan := canMoveInst_rejects_ordered_load F AA AST I LI hk h
  obtain ⟨R, hR, hok, -⟩ := getMovableUses_returns F AA DT AST fromBB toBB
  refine ⟨hcan, R, hR, ?_⟩
  intro hmem
  obtain ⟨j, -, hj, hadm⟩ := hok.2 _ hmem
  cases hj
  rw [hadm.1] at hcan
  cases hcan

theorem ordered_load_never_candidate_witness :
    canMoveInst volatileLoad noConstantMemory (noWrites []) 0 = false ∧
    ∃ R, getMovableUses volatileLoad noConstantMemory dominatesNothing (noWrites []) 1 0
        ((volatileLoad.insts 1).length + 1) [] = some R ∧
      Value.inst 0 ∉ R :=
  ordered_load_never_candidate volatileLoad noConstantMemory dominatesNothing (noWrites []) 1 0
    0 { isVolatile := true, ordering := AtomicOrdering.notAtomic, invariantLoad := false,
        typeSized := true, typeStoreSize := 8, aaInfo := 0 }
    rfl (Or.inl rfl)

/-! ## Links and members of the chains -/

/-- Evaluation for C21 (chain links are CFG edges): on the graph `A -> B` (twice), `B -> C` with the
dominance relations of the graph, `createChains` returns the chain `[A, B, B, C]`: after
`B` is appended the `for` loop goes on over the successors of `A`, meets `B` again with
`BB = B`, and appends it since `dominates(B, B)` and `postDominates(B, B)` hold. The link
`(B, B)` of the chain is no edge: the only successor of `B` is `C`. -/
theorem createChains_link_not_edge :
    createChains doubleEdge (dominates doubleEdge 0) (postDominates doubleEdge) 10 [] 0
      = some [{ chain := [0, 1, 1, 2], between := [(1, []), (1, []), (0, [])] }] ∧
    successors doubleEdge 1 = [2] ∧
    (1 : BasicBlock) ∉ successors doubleEdge 1 := by
  decide

/-- Reachability is an invariant of `createChains` and of its loops: when the blocks
covered, the block `BB` and the successors left to examine are reachable from `root`, so
are the blocks covered afterwards. -/
theorem createChains_reachable (g : CFG) (DT PDT : BasicBlock → BasicBlock → Bool)
    (root : BasicBlock) (fuel : Nat) :
    (∀ chains BB r, createChains g DT PDT fuel chains BB = some r →
      Relation.ReflTransGen (Edge g) root BB →
      (∀ b, Covered chains b → Relation.ReflTransGen (Edge g) root b) →
      ∀ b, Covered r b → Relation.ReflTransGen (Edge g) root b) ∧
    (∀ chains index BB r,
      createChains.whileLoop g DT PDT fuel chains index BB = some r →
      Relation.ReflTransGen (Edge g) root BB →
      (∀ b, Covered chains b → Relation.ReflTransGen (Edge g) root b) →
      ∀ b, Covered r b → Relation.ReflTransGen (Edge g) root b) ∧
    (∀ chains index BB ss did r,
      createChains.forLoop g DT PDT fuel chains index BB ss did = some r →
      (∀ s ∈ ss, Relation.ReflTransGen (Edge g) root s) →
      Relation.ReflTransGen (Edge g) root BB →
      (∀ b, Covered chains b → Relation.ReflTransGen (Edge g) root b) →
      (∀ b, Covered r.1 b → Relation.ReflTransGen (Edge g) root b) ∧
        Relation.ReflTransGen (Edge g) root r.2.1) := by
  apply createChains_induction g DT PDT
    (fun chains BB r =>
      Relation.ReflTransGen (Edge g) root BB →
      (∀ b, Covered chains b → Relation.ReflTransGen (Edge g) root b) →
      ∀ b, Covered r b → Relation.ReflTransGen (Edge g) root b)
    (fun chains _ BB r =>
      Relation.ReflTransGen (Edge g) root BB →
      (∀ b, Covered chains b → Relation.ReflTransGen (Edge g) root b) →
      ∀ b, Covered r b → Relation.ReflTransGen (Edge g) root b)
    (fun chains _ BB ss _ r =>
      (∀ s ∈ ss, Relation.ReflTransGen (Edge g) root s) →
      Relation.ReflTransGen (Edge g) root BB →
      (∀ b, Covered chains b → Relation.ReflTransGen (Edge g) root b) →
      (∀ b, Covered r.1 b → Relation.ReflTransGen (Edge g) root b) ∧
        Relation.ReflTransGen (Edge g) root r.2.1)
  · intro n chains BB r _ ih hBB hcov
    apply ih hBB
    intro b hb
    rcases (covered_init_iff chains BB b).mp hb with h | h
    · exact hcov b h
    · rw [h]; exact hBB
  · intro n chains index BB chains1 BB1 _ ih hBB hcov
    exact (ih (fun s hs => Relation.ReflTransGen.tail hBB hs) hBB hcov).1
  · intro n chains index BB chains1 BB1 r _ _ ih1 ih2 hBB hcov
    obtain ⟨h1, h2⟩ := ih1 (fun s hs => Relation.ReflTransGen.tail hBB hs) hBB hcov
    exact ih2 h2 h1
  · intro chains index BB did _ hBB hcov
    exact ⟨hcov, hBB⟩
  · intro n chains index BB s ss did chains1 r _ _ ha _ ih hss _ hcov
    obtain ⟨c, c', last, hc, -, -, hc', rfl⟩ := appendAt_spec ha
    have hs := hss s (List.mem_cons_self _ _)
    apply ih (fun x hx => hss x (List.mem_cons_of_mem _ hx)) hs
    intro b hb
    rcases (covered_set_iff hc hc' b).mp hb with h | h
    · exact hcov b h
    · rw [h]; exact hs
  · intro n chains index BB s ss did r _ _ _ ih hss hBB hcov
    exact ih (fun x hx => hss x (List.mem_cons_of_mem _ hx)) hBB hcov
  · intro n chains index BB s ss did chains1 r _ _ _ _ ihA ihC hss hBB hcov
    exact ihC (fun x hx => hss x (List.mem_cons_of_mem _ hx)) hBB
      (ihA (hss s (List.mem_cons_self _ _)) hcov)

/-- C23 (unreachable blocks are never visited): whatever the oracles answer, every block
that is a member of a chain returned by `createChains` from the root is reachable from the
root along successor edges. -/
theorem createChains_members_reachable (g : CFG) (DT PDT : BasicBlock → BasicBlock → Bool)
    (fuel : Nat) (root : BasicBlock) (chains : List Chain)
    (h : createChains g DT PDT fuel [] root = some chains) :
    ∀ c ∈ chains, ∀ b ∈ c.chain, Relation.ReflTransGen (Edge g) root b := by
  intro c hc b hb
  exact (createChains_reachable g DT PDT root fuel).1 [] root chains h
    Relation.ReflTransGen.refl
    (by rintro x ⟨c', hc', -⟩; exact absurd hc' (List.not_mem_nil _)) b ⟨c, hc, hb⟩

theorem createChains_members_reachable_witness :
    createChains [[1], [2, 3], [], [2], [1]] (dominates [[1], [2, 3], [], [2], [1]] 0)
        (postDominates [[1], [2, 3], [], [2], [1]]) 10 [] 0
      = some [{ chain := [0, 1, 2], between := [(1, [3]), (0, [])] },
          { chain := [3], between := [] }] ∧
    ∀ c ∈ [({ chain := [0, 1, 2], between := [(1, [3]), (0, [])] } : Chain),
          { chain := [3], between := [] }],
      ∀ b ∈ c.chain, Relation.ReflTransGen (Edge [[1], [2, 3], [], [2], [1]]) 0 b :=
  ⟨by decide, createChains_members_reachable [[1], [2, 3], [], [2], [1]]
    (dominates [[1], [2, 3], [], [2], [1]] 0) (postDominates [[1], [2, 3], [], [2], [1]])
    10 0 _ (by decide)⟩

/-! ## Scans of getMovableUses -/

/-- The values a scan pushes are not in the list it started from. -/
theorem scan_fresh (F : Func) (AA : AliasAnalysis) (DT : Nat → BasicBlock → Bool)
    (AST : AliasSetTracker) (toBB : BasicBlock) (l : List Nat) :
    ∀ (uses : List Value) (did : Bool),
      ∃ new, (getMovableUses.scan F AA DT AST toBB l (uses, did)).1 = uses ++ new ∧
        ∀ v ∈ new, v ∉ uses := by
  induction l with
  | nil =>
    intro uses did
    exact ⟨[], by simp [getMovableUses.scan], by simp⟩
  | cons i rest ih =>
    intro uses did
    by_cases hc : Admissible F AA DT AST toBB uses i ∧ Value.inst i ∉ uses
    · rw [scan_cons_push F AA DT AST toBB i rest uses did hc]
      obtain ⟨new, h1, h2⟩ := ih (uses ++ [Value.inst i]) true
      refine ⟨Value.inst i :: new, by rw [h1]; simp, ?_⟩
      intro v hv
      rcases List.mem_cons.mp hv with h | h
      · rw [h]; exact hc.2
      · exact fun hu => h2 v h (List.mem_append_left _ hu)
    · rw [scan_cons_skip F AA DT AST toBB i rest uses did hc]
      exact ih uses did

/-- A scan that sets `didSomething` leaves fewer values pending. -/
theorem pending_scan_lt (F : Func) (AA : AliasAnalysis) (DT : Nat → BasicBlock → Bool)
    (AST : AliasSetTracker) (toBB : BasicBlock) (l : List Nat) (uses : List Value)
    (hd : (getMovableUses.scan F AA DT AST toBB l (uses, false)).2 = true) :
    (pending l (getMovableUses.scan F AA DT AST toBB l (uses, false)).1).length
      < (pending l uses).length := by
  obtain ⟨⟨new, h1, h2, -, h4⟩, -⟩ := scan_spec F AA DT AST toBB l uses false
  obtain ⟨new', h1', h2'⟩ := scan_fresh F AA DT AST toBB l uses false
  have hnew : new' = new := List.append_cancel_left (h1'.symm.trans h1)
  subst hnew
  have hne : new' ≠ [] := by
    rcases h4.mp hd with h | h
    · cases h
    · exact h
  obtain ⟨v, hv⟩ := List.exists_mem_of_ne_nil new' hne
  obtain ⟨i, hi, hvi, -⟩ := h2 v hv
  have hvu : v ∉ uses := h2' v hv
  rw [h1]
  have hfilter : pending l (uses ++ new')
      = (pending l uses).filter fun w => !new'.contains w := by
    unfold pending
    rw [List.filter_filter]
    congr 1
    funext w
    simp only [List.contains_eq_any_beq, List.any_append, Bool.not_or, Bool.and_comm]
  rw [hfilter]
  apply List.length_filter_lt_length_iff_exists.mpr
  refine ⟨v, ?_, ?_⟩
  · unfold pending
    rw [List.mem_filter, List.mem_dedup]
    exact ⟨by rw [hvi]; exact List.mem_map_of_mem _ hi, by simpa using hvu⟩
  · simpa using hv

theorem pending_length_le (l : List Nat) (uses : List Value) :
    (pending l uses).length ≤ l.length := by
  unfold pending
  calc ((l.map Value.inst).dedup.filter fun v => !uses.contains v).length
      ≤ (l.map Value.inst).dedup.length := List.length_filter_le _ _
    _ ≤ (l.map Value.inst).length := (List.dedup_sublist _).length_le
    _ = l.length := List.length_map _ _

/-- From any list `uses`, the `while` loop of `getMovableUses` returns within one scan
more than values are pending, and what it returns contains `uses`. -/
theorem getMovableUses_terminates (F : Func) (AA : AliasAnalysis)
    (DT : Nat → BasicBlock → Bool) (AST : AliasSetTracker) (fromBB toBB : BasicBlock) :
    ∀ (fuel : Nat) (uses : List Value),
      (pending (F.insts fromBB) uses).length + 1 ≤ fuel →
      ∃ R, getMovableUses F AA DT AST fromBB toBB fuel uses = some R ∧
        ∀ v ∈ uses, v ∈ R := by
  intro fuel
  induction fuel with
  | zero => intro uses h; omega
  | succ n ih =>
    intro uses hlen
    obtain ⟨new, h1, -⟩ := scan_fresh F AA DT AST toBB (F.insts fromBB) uses false
    rw [getMovableUses]
    by_cases hd : (getMovableUses.scan F AA DT AST toBB (F.insts fromBB) (uses, false)).2 = true
    · simp only [hd, if_true]
      have hlt := pending_scan_lt F AA DT AST toBB (F.insts fromBB) uses hd
      obtain ⟨R, hR, hsub⟩ :=
        ih (getMovableUses.scan F AA DT AST toBB (F.insts fromBB) (uses, false)).1 (by omega)
      refine ⟨R, hR, fun v hv => hsub v ?_⟩
      rw [h1]
      exact List.mem_append_left _ hv
    · simp only [hd]
      refine ⟨_, rfl, fun v hv => ?_⟩
      rw [h1]
      exact List.mem_append_left _ hv

/-- C22 (collector termination and monotonicity): on a source block of `n` instructions
and from any list `uses`, `getMovableUses` returns within `n + 1` full scans (every scan
takes one unit of fuel); every scan only appends to the list it starts from, so the
admitted set after a scan contains the set before it, and the list returned contains the
list the run started from. -/
theorem getMovableUses_scans_bounded (F : Func) (AA : AliasAnalysis)
    (DT : Nat → BasicBlock → Bool) (AST : AliasSetTracker) (fromBB toBB : BasicBlock)
    (uses : List Value) :
    (∃ R, getMovableUses F AA DT AST fromBB toBB ((F.insts fromBB).length + 1) uses = some R ∧
      ∀ v ∈ uses, v ∈ R) ∧
    ∀ (before : List Value) (did : Bool),
      ∃ new, (getMovableUses.scan F AA DT AST toBB (F.insts fromBB) (before, did)).1
          = before ++ new ∧
        ∀ v ∈ before,
          v ∈ (getMovableUses.scan F AA DT AST toBB (F.insts fromBB) (before, did)).1 := by
  constructor
  · apply getMovableUses_terminates
    have := pending_length_le (F.insts fromBB) uses
    omega
  · intro before did
    obtain ⟨new, h1, -⟩ := scan_fresh F AA DT AST toBB (F.insts fromBB) before did
    refine ⟨new, h1, fun v hv => ?_⟩
    rw [h1]
    exact List.mem_append_left _ hv

/-! ## The access size of the alias query -/

/-- C24 (unsized access default): for an ordinary load that reaches the alias query
(unordered, address not proven constant, not marked invariant), `canMoveInst` is, for
every alias oracle, the negation of the query made with size 0 when the loaded type is
unsized and with the store size of the type otherwise; `canMoveInst` is a total function
to `Bool`, so it returns `true` or `false` in both cases. -/
theorem canMoveInst_access_size (F : Func) (AA : AliasAnalysis) (I : Nat) (LI : LoadInst)
    (hk : (F.inst I).kind = InstKind.load LI) (hu : LI.isUnordered = true)
    (hc : AA.pointsToConstantMemory ((F.inst I).operands.getD 0 (Value.other 0)) = false)
    (hi : LI.invariantLoad = false) :
    (LI.typeSized = false →
      ∀ AST : AliasSetTracker,
        canMoveInst F AA AST I = !AST.isMod (Value.inst I) 0 LI.aaInfo) ∧
    (LI.typeSized = true →
      ∀ AST : AliasSetTracker,
        canMoveInst F AA AST I = !AST.isMod (Value.inst I) LI.typeStoreSize LI.aaInfo) ∧
    ∀ AST : AliasSetTracker,
      canMoveInst F AA AST I = true ∨ canMoveInst F AA AST I = false := by
  refine ⟨?_, ?_, ?_⟩
  · intro hs AST
    rw [canMoveInst_ordinary_load F AA AST I LI hk hu hc hi, hs]
    rfl
  · intro hs AST
    rw [canMoveInst_ordinary_load F AA AST I LI hk hu hc hi, hs]
    rfl
  · intro AST
    cases canMoveInst F AA AST I
    · exact Or.inr rfl
    · exact Or.inl rfl

theorem canMoveInst_access_size_witness :
    ((false = false →
        ∀ AST : AliasSetTracker,
          canMoveInst unsizedLoad noConstantMemory AST 0 = !AST.isMod (Value.inst 0) 0 0) ∧
      (false = true →
        ∀ AST : AliasSetTracker,
          canMoveInst unsizedLoad noConstantMemory AST 0 = !AST.isMod (Value.inst 0) 4 0) ∧
      ∀ AST : AliasSetTracker,
        canMoveInst unsizedLoad noConstantMemory AST 0 = true ∨
          canMoveInst unsizedLoad noConstantMemory AST 0 = false) ∧
    ((true = false →
        ∀ AST : AliasSetTracker,
          canMoveInst oneLoad noConstantMemory AST 0 = !AST.isMod (Value.inst 0) 0 0) ∧
      (true = true →
        ∀ AST : AliasSetTracker,
          canMoveInst oneLoad noConstantMemory AST 0 = !AST.isMod (Value.inst 0) 8 0) ∧
      ∀ AST : AliasSetTracker,
        canMoveInst oneLoad noConstantMemory AST 0 = true ∨
          canMoveInst oneLoad noConstantMemory AST 0 = false) :=
  ⟨canMoveInst_access_size unsizedLoad noConstantMemory 0
      { isVolatile := false, ordering := AtomicOrdering.notAtomic, invariantLoad := false,
        typeSized := false, typeStoreSize := 4, aaInfo := 0 }
      rfl (by decide) (by decide) rfl,
    canMoveInst_access_size oneLoad noConstantMemory 0
      { isVolatile := false, ordering := AtomicOrdering.notAtomic, invariantLoad := false,
        typeSized := true, typeStoreSize := 8, aaInfo := 0 }
      rfl (by decide) (by decide) rfl⟩

/-! ## The search of LiveRange on a loop -/

/-- Evaluation for C25 (liveness reporter exactness): on the function `liveLoop`, for either order
of the successors of `A`, `runOnInstruction` of instruction `0` returns with `LiveIn`
holding it for `A` and `U` and `LiveOut` for `D` and `A`, but for `B` in neither map: when
the search reaches `A` again from `B`, `A` is in `visited` while its entry in `LiveIn` is
not yet made, so the search of `B` finds nothing. Block `B` meets the live-in and the
live-out condition of the claim: it is reached from `A`, the successor of `D`, and its
successor `A` leads to the user in `U`. -/
theorem liveRange_misses_loop_block :
    (LiveRange.runOnInstruction (liveLoop [2, 3]) 10 0 [] []
        = some ([(1, 0), (3, 0)], [(1, 0), (0, 0)]) ∧
      LiveRange.runOnInstruction (liveLoop [3, 2]) 10 0 [] []
        = some ([(1, 0), (3, 0)], [(1, 0), (0, 0)])) ∧
    (LiveMap.count [(1, 0), (3, 0)] 2 0 = false ∧
      LiveMap.count [(1, 0), (0, 0)] 2 0 = false) ∧
    (LiveInExpected (liveLoop [2, 3]) 0 2 ∧ LiveOutExpected (liveLoop [2, 3]) 0 2) ∧
    (LiveInExpected (liveLoop [3, 2]) 0 2 ∧ LiveOutExpected (liveLoop [3, 2]) 0 2) := by
  have a12 : Reach (successors (liveLoop [2, 3]).cfg) 0 1 2 :=
    Reach.base (by decide) (by decide)
  have a21 : Reach (successors (liveLoop [2, 3]).cfg) 0 2 1 :=
    Reach.base (by decide) (by decide)
  have a23 : Reach (successors (liveLoop [2, 3]).cfg) 0 2 3 :=
    Reach.step a21 (by decide) (by decide)
  have a13 : Reach (successors (liveLoop [2, 3]).cfg) 0 1 3 :=
    Reach.base (by decide) (by decide)
  have b12 : Reach (successors (liveLoop [3, 2]).cfg) 0 1 2 :=
    Reach.base (by decide) (by decide)
  have b21 : Reach (successors (liveLoop [3, 2]).cfg) 0 2 1 :=
    Reach.base (by decide) (by decide)
  have b23 : Reach (successors (liveLoop [3, 2]).cfg) 0 2 3 :=
    Reach.step b21 (by decide) (by decide)
  have b13 : Reach (successors (liveLoop [3, 2]).cfg) 0 1 3 :=
    Reach.base (by decide) (by decide)
  refine ⟨⟨by decide, by decide⟩, ⟨by decide, by decide⟩, ⟨?_, ?_⟩, ⟨?_, ?_⟩⟩
  · exact ⟨⟨1, by decide, by decide, Or.inr a12⟩, 3, 1, Or.inr a23,
      by decide, by decide, by decide⟩
  · exact ⟨1, by decide, by decide, 3, 1, Or.inr a13, by decide, by decide, by decide⟩
  · exact ⟨⟨1, by decide, by decide, Or.inr b12⟩, 3, 1, Or.inr b23,
      by decide, by decide, by decide⟩
  · exact ⟨1, by decide, by decide, 3, 1, Or.inr b13, by decide, by decide, by decide⟩

end MinReg
